import Mathlib

/-!
Verification development for the idb-batch library (`src/index.js`).

The JavaScript source is shallowly embedded: JS values become the inductive
type `JVal`, the IndexedDB engine becomes explicit state passing over
association lists, asynchronous request completion becomes either a serial
step function (serial mode: one request in flight at a time) or a FIFO queue
of pending requests (parallel mode: IndexedDB delivers results in request
order), and thrown/rejected errors become `Except`/explicit outcome types.
-/

set_option maxRecDepth 4000

/-- JavaScript-like values as manipulated by idb-batch: primitives, plain
objects (ordered field lists), arrays, and opaque function values (task
callbacks, which have no enumerable keys). -/
inductive JVal : Type where
  | undef : JVal
  | null : JVal
  | jbool : Bool → JVal
  | num : Int → JVal
  | str : String → JVal
  | obj : List (String × JVal) → JVal
  | arr : List JVal → JVal
  | func : Nat → JVal

mutual

/-- Structural boolean equality on `JVal` (used to build `DecidableEq`). -/
def beqJ : JVal → JVal → Bool
  | .undef, .undef => true
  | .null, .null => true
  | .jbool a, .jbool b => a == b
  | .num a, .num b => a == b
  | .str a, .str b => a == b
  | .obj a, .obj b => beqFieldsJ a b
  | .arr a, .arr b => beqListJ a b
  | .func a, .func b => a == b
  | _, _ => false

/-- Boolean equality on object field lists. -/
def beqFieldsJ : List (String × JVal) → List (String × JVal) → Bool
  | [], [] => true
  | (k1, v1) :: r1, (k2, v2) :: r2 => k1 == k2 && beqJ v1 v2 && beqFieldsJ r1 r2
  | _, _ => false

/-- Boolean equality on value lists. -/
def beqListJ : List JVal → List JVal → Bool
  | [], [] => true
  | v1 :: r1, v2 :: r2 => beqJ v1 v2 && beqListJ r1 r2
  | _, _ => false

end

mutual

def beqJ_iff : ∀ a b, beqJ a b = true ↔ a = b
  | .undef, b => by cases b <;> simp [beqJ]
  | .null, b => by cases b <;> simp [beqJ]
  | .jbool a, b => by cases b <;> simp [beqJ]
  | .num a, b => by cases b <;> simp [beqJ]
  | .str a, b => by cases b <;> simp [beqJ]
  | .obj a, b => by
      cases b <;> simp [beqJ]
      exact beqFieldsJ_iff a _
  | .arr a, b => by
      cases b <;> simp [beqJ]
      exact beqListJ_iff a _
  | .func a, b => by cases b <;> simp [beqJ]

def beqFieldsJ_iff : ∀ a b, beqFieldsJ a b = true ↔ a = b
  | [], b => by cases b <;> simp [beqFieldsJ]
  | (k1, v1) :: r1, b => by
      cases b with
      | nil => simp [beqFieldsJ]
      | cons p r2 =>
          obtain ⟨k2, v2⟩ := p
          simp [beqFieldsJ, beqJ_iff v1 v2, beqFieldsJ_iff r1 r2, and_assoc]

def beqListJ_iff : ∀ a b, beqListJ a b = true ↔ a = b
  | [], b => by cases b <;> simp [beqListJ]
  | v1 :: r1, b => by
      cases b with
      | nil => simp [beqListJ]
      | cons v2 r2 => simp [beqListJ, beqJ_iff v1 v2, beqListJ_iff r1 r2]

end

instance : DecidableEq JVal := fun a b => decidable_of_iff (beqJ a b = true) (beqJ_iff a b)

instance : BEq JVal := ⟨fun a b => beqJ a b⟩

instance : LawfulBEq JVal where
  eq_of_beq h := (beqJ_iff _ _).1 h
  rfl := (beqJ_iff _ _).2 rfl

/-- JavaScript truthiness. -/
def truthy : JVal → Bool
  | .undef => false
  | .null => false
  | .jbool b => b
  | .num n => n ≠ 0
  | .str s => s ≠ ""
  | .obj _ => true
  | .arr _ => true
  | .func _ => true

/-- Mirrors the `is-plain-obj` package: true exactly for plain objects. -/
def isPlainObj : JVal → Bool
  | .obj _ => true
  | _ => false

/-- JS property read `v[k]`: first field with that name, `undefined` when the
field is absent or the receiver is not a plain object. -/
def getFieldJ : JVal → String → JVal
  | .obj fs, k => (((fs.find? (fun p => p.1 = k))).map (fun p => p.2)).getD .undef
  | _, _ => (.undef)

/-- JS property write `v[k] = w`: overwrite in place when the field exists,
append it otherwise; silently no-op on non-objects. -/
def setFieldJ : JVal → String → JVal → JVal
  | .obj fs, k, w =>
      if (fs.find? (fun p => p.1 = k)).isSome
      then .obj (fs.map (fun p => if p.1 = k then (p.1, w) else p))
      else .obj (fs ++ [(k, w)])
  | v, _, _ => v

/-- JS `Object.keys`, which returns `[]` for functions and primitives. -/
def objKeys : JVal → List String
  | .obj fs => fs.map (fun p => p.1)
  | _ => []

/-- Template-literal stringification of a value, as used by the
`invalid type "<X>"` error message. (Arrays stringify by joining their
elements in JS; that case is unused by the claims and abbreviated here.) -/
def jsToDisplay : JVal → String
  | .undef => "undefined"
  | .null => "null"
  | .jbool b => if b then "true" else "false"
  | .num n => toString n
  | .str s => s
  | .obj _ => "[object Object]"
  | .arr _ => ""
  | .func _ => "function"

/-- JS errors: `TypeError`s from validation and plain `Error`s from the
engine/constraint checks, identified by their message. -/
inductive JErr : Type where
  | typeErr (msg : String)
  | jsErr (msg : String)
deriving DecidableEq

deriving instance DecidableEq for Except

/-- The object-syntax tombstone marker: the single-character string `"\0"`. -/
def tombstone : String := "\x00"

/-- Mirrors `ops[key].replace(/^\0/, '')`: strip exactly one leading
tombstone character. -/
def stripTomb (s : String) : String :=
  if s.data.head? = some (Char.ofNat 0) then s.drop 1 else s

/-- One entry of the object-syntax mapping, mirroring
`{ key, value: typeof v === 'string' ? v.replace(/^\0/, '') : v, type: v === '\0' ? 'del' : 'put' }`. -/
def objEntryToOp (k : String) (v : JVal) : JVal :=
  .obj [("key", .str k),
        ("value", match v with | .str s => .str (stripTomb s) | w => w),
        ("type", if v = .str tombstone then .str "del" else .str "put")]

/-- The recognized operation types (`checkOp`'s whitelist). -/
def validTypes : List String := ["add", "put", "del", "move", "copy", "clear"]

/-- Mirrors `checkOp`: fail unless `op.type` is a recognized type string. -/
def checkOp (op : JVal) : Except JErr Unit :=
  match getFieldJ op "type" with
  | .str t =>
      if t ∈ validTypes then .ok ()
      else .error (.typeErr ("invalid type \"" ++ t ++ "\""))
  | w => .error (.typeErr ("invalid type \"" ++ jsToDisplay w ++ "\""))

/-- First validation error among a list of tagged shorthand descriptors. -/
def checkOpErr (op : JVal) : Option JErr :=
  match checkOp op with
  | .error e => some e
  | .ok _ => none

/-- Mirrors `Object.assign(oper, { type })` on a shorthand descriptor.
Non-object descriptors become primitive wrapper objects in JS; the model
keeps only the assigned `type` field of such wrappers (no claim reads any
other field of a wrapper). -/
def assignTypeJ (t : String) : JVal → JVal
  | .obj fs => setFieldJ (.obj fs) "type" (.str t)
  | _ => .obj [("type", .str t)]

/-- Mirrors the `ops.forEach((op, i) => ... ops.splice(i, 1, ...) ...)` loop
of `validateAndCanonicalizeOps`. `Array.prototype.forEach` caches the length
before the first callback, so the loop visits indices `0 .. origLen - 1` of
the evolving array and skips indices past the current length; `remaining` is
the count of indices still to visit (`origLen - k`), making the recursion
structural. -/
def canonLoop : Nat → Nat → List JVal → Except JErr (List JVal)
  | 0, _, ops => .ok ops
  | remaining + 1, k, ops =>
    match ops[k]? with
    | none => canonLoop remaining (k + 1) ops
    | some op =>
      if isPlainObj op then
        match objKeys op with
        | [t] =>
          if t ≠ "type" then
            let inner := getFieldJ op t
            let opers := match inner with | .arr es => es | w => [w]
            let tagged := opers.map (assignTypeJ t)
            match tagged.findSome? checkOpErr with
            | some e => .error e
            | none => canonLoop remaining (k + 1) (ops.take k ++ tagged ++ ops.drop (k + 1))
          else
            match checkOp op with
            | .error e => .error e
            | .ok _ => canonLoop remaining (k + 1) ops
        | _ =>
          match checkOp op with
          | .error e => .error e
          | .ok _ => canonLoop remaining (k + 1) ops
      else .error (.typeErr "invalid op")

/-- Mirrors `validateAndCanonicalizeOps`: the `'clear'` sentinel becomes a
single clear operation, a non-array non-object input is `invalid "ops"`, a
plain-object mapping is turned entry-wise into put/del descriptors, and the
resulting array is validated (and shorthand-by-type entries expanded) by the
splicing `forEach` loop. -/
def validateAndCanonicalizeOps (ops0 : JVal) : Except JErr (List JVal) :=
  let ops1 := if ops0 = .str "clear" then .arr [.obj [("type", .str "clear")]] else ops0
  match ops1 with
  | .obj fs =>
      let mapped := fs.map (fun p => objEntryToOp p.1 p.2)
      canonLoop mapped.length 0 mapped
  | .arr es => canonLoop es.length 0 es
  | _ => .error (.typeErr "invalid \"ops\"")

/-- An index key path: a single field name (simple index) or a list of field
names (compound index; `isCompound` tests `typeof keyPath !== 'string'`). -/
inductive IxPath : Type where
  | simple (f : String)
  | compound (fs : List String)
deriving DecidableEq

/-- A declared secondary index of a store. -/
structure IndexDef where
  iname : String
  path : IxPath
  unique : Bool
deriving DecidableEq

/-- A store's schema: an optional in-line key path and its declared indexes.
(Auto-increment key generation is not needed by any claim and is not
modelled; an in-line write whose key field is missing fails as the engine's
`DataError` would.) -/
structure StoreDef where
  keyPath : Option String
  indexes : List IndexDef
deriving DecidableEq

/-- A store with no key path and no indexes. -/
def plainStore : StoreDef := ⟨none, []⟩

/-- Store contents: records in insertion order, keyed by primary key. -/
abbrev Contents := List (JVal × JVal)

/-- Engine `store.get(key)`: `undefined` when no record has that key. -/
def storeGetRec (c : Contents) (k : JVal) : JVal :=
  ((c.find? (fun p => p.1 = k)).map (fun p => p.2)).getD (.undef)

/-- Engine `store.delete(key)`. -/
def storeDelRec (c : Contents) (k : JVal) : Contents :=
  c.filter (fun p => ¬ p.1 = k)

/-- Engine `store.put(...)`: overwrite the record at the key or append it. -/
def storePutRec (c : Contents) (k v : JVal) : Contents :=
  if (c.find? (fun p => p.1 = k)).isSome
  then c.map (fun p => if p.1 = k then (k, v) else p)
  else c ++ [(k, v)]

/-- Valid IndexedDB keys as far as the claims need them: numbers, strings
and arrays of number/string components (deeper nesting unused). -/
def validKeyAtom : JVal → Bool
  | .num _ => true
  | .str _ => true
  | _ => false

/-- Validity of a key, one nesting level of arrays deep. -/
def validKey : JVal → Bool
  | .num _ => true
  | .str _ => true
  | .arr ks => ks.all validKeyAtom
  | _ => false

/-- The key under which the ENGINE indexes a stored record: the named field
(simple) or the array of all named fields (compound). A record whose field
is missing or not a valid key is absent from the index — the engine never
drops falsy-but-valid components such as `0` or `""`. -/
def engineIndexKey (ix : IndexDef) (v : JVal) : Option JVal :=
  match ix.path with
  | .simple f => if validKey (getFieldJ v f) then some (getFieldJ v f) else none
  | .compound fs =>
      if (fs.map (getFieldJ v)).all validKeyAtom
      then some (.arr (fs.map (getFieldJ v)))
      else none

/-- Engine `index.getKey(q)`: the primary key of the first stored record
whose engine index key equals `q` (`none` → request result `undefined`). -/
def indexGetKey (ix : IndexDef) (c : Contents) (q : JVal) : Option JVal :=
  (c.find? (fun p => engineIndexKey ix p.2 = some q)).map (fun p => p.1)

/-- Mirrors `isCompound(index)`. -/
def isCompound (ix : IndexDef) : Bool :=
  match ix.path with
  | .simple _ => false
  | .compound _ => true

/-- The candidate index key `countUniqueIndexes` derives from the value
being written: the named field for a simple index, and for a compound index
the array of named fields with every falsy component FILTERED OUT
(`map.call(index.keyPath, (k) => val[k]).filter((v) => v)`). -/
def candidateIndexVal (ix : IndexDef) (val : JVal) : JVal :=
  match ix.path with
  | .simple f => getFieldJ val f
  | .compound fs => .arr ((fs.map (getFieldJ val)).filter truthy)

/-- Mirrors the filter `index.unique && (isCompound(index) ? indexVal.length : indexVal)`:
keep an index only if it is unique and its derived candidate key is
non-degenerate. -/
def keptForCheck (ix : IndexDef) (val : JVal) : Bool :=
  ix.unique &&
    (match ix.path with
     | .simple f => truthy (getFieldJ val f)
     | .compound fs => ¬ ((fs.map (getFieldJ val)).filter truthy).length = 0)

/-- Mirrors `countUniqueIndexes(store, key, val, cb)`. `engaged` is the
workaround capability flag (`isSafari || indexedDB === shimIndexedDB`);
without it, or with no kept index, the callback fires with no counter
(`none`). Otherwise the counter counts kept indexes whose `getKey` lookup
returned a truthy primary key different from the key being written
(`e.target.result && e.target.result !== key`). -/
def countUniqueIndexes (engaged : Bool) (sd : StoreDef) (c : Contents) (key val : JVal) :
    Option Nat :=
  if engaged then
    let kept := sd.indexes.filter (fun ix => keptForCheck ix val)
    if kept.isEmpty then none
    else some (kept.countP (fun ix =>
      match indexGetKey ix c (candidateIndexVal ix val) with
      | some pk => truthy pk && ¬ pk = key
      | none => false))
  else none

/-- The write is vetoed iff the counter is truthy (`if (uniqueRecordsCounter)
return reject(new Error('Unique index ConstraintError'))`). -/
def uniqueViolation (engaged : Bool) (sd : StoreDef) (c : Contents) (key val : JVal) : Bool :=
  match countUniqueIndexes engaged sd c key val with
  | some n => ¬ n = 0
  | none => false

/-- Reads `op.val || op.value` (JS `||`: the first operand when truthy,
otherwise the second). -/
def opValField (op : JVal) : JVal :=
  if truthy (getFieldJ op "val") then getFieldJ op "val" else getFieldJ op "value"

/-- The value actually written by an add/put: `ops[opIndex].val ||
ops[opIndex].value`, after line 170's `if (key && store.keyPath)
val[store.keyPath] = key`. -/
def writtenVal (sd : StoreDef) (op : JVal) : JVal :=
  match sd.keyPath with
  | some kp =>
      if truthy (getFieldJ op "key") then setFieldJ (opValField op) kp (getFieldJ op "key")
      else opValField op
  | none => opValField op

/-- The rewritten operation a copy/move turns into:
`{ type: 'put', key, value: e.target.result }`. -/
def putDesc (key fetched : JVal) : JVal :=
  .obj [("type", .str "put"), ("key", key), ("value", fetched)]

/-- The operation a move splices in after the rewritten put:
`{ type: 'del', key: val }`. -/
def delDesc (srcKey : JVal) : JVal :=
  .obj [("type", .str "del"), ("key", srcKey)]

/-- The engine's execution of one issued write request: effect on the store
contents plus the request result (`e.target.result`). Out-of-line stores use
`store[type](val, key)`, in-line stores `store[type](val)` with the key read
from the key path; `add` signals `ConstraintError` on an existing key. -/
def engineWrite (sd : StoreDef) (c : Contents) (ty : String) (key val : JVal) :
    Except JErr (Contents × JVal) :=
  match ty with
  | "clear" => .ok ([], .undef)
  | "del" => .ok (storeDelRec c key, .undef)
  | "add" | "put" =>
    match sd.keyPath with
    | some kp =>
        let wk := getFieldJ val kp
        if ¬ validKey wk then .error (.jsErr "DataError")
        else if ty = "add" ∧ (c.find? (fun p => p.1 = wk)).isSome
        then .error (.jsErr "ConstraintError")
        else .ok (storePutRec c wk val, wk)
    | none =>
        if ¬ validKey key then .error (.jsErr "DataError")
        else if ty = "add" ∧ (c.find? (fun p => p.1 = key)).isSome
        then .error (.jsErr "ConstraintError")
        else .ok (storePutRec c key val, key)
  | _ => .error (.typeErr ("store[type] is not a function: " ++ ty))

/-- Execution state of one store's serial run: the evolving (spliced)
operation array, the current `opIndex`, the store contents, and the
accumulated `storeResults[storeName]` list (whose length is `successCt`,
since in serial mode results land at consecutive indices). -/
structure SState where
  ops : List JVal
  idx : Nat
  contents : Contents
  results : List JVal
deriving DecidableEq

/-- Outcome of one serial step: continue at the state's `idx`, unit finished
(`successCt === ops.length`), or rejection. A rejection carries the state
unchanged — the vetoed/failed write was never applied. -/
inductive StepRes : Type where
  | more (s : SState)
  | done (s : SState)
  | fail (e : JErr) (s : SState)
deriving DecidableEq

/-- Mirrors `request`'s `onsuccess` in serial mode: record the result at the
next index and either finish (`successCt === ops.length - moveCt`, with
`moveCt` always 0 in serial mode) or continue with `next(++opIndex)`. -/
def afterSuccess (s : SState) (newContents : Contents) (res : JVal) : StepRes :=
  if s.results.length + 1 = s.ops.length
  then .done ⟨s.ops, s.idx, newContents, s.results ++ [res]⟩
  else .more ⟨s.ops, s.idx + 1, newContents, s.results ++ [res]⟩

/-- Mirrors one activation of `next(storeOpsIdx, opIndex)` in serial mode,
followed (for non-move/copy types) by the engine completing the single
in-flight request and running `request`'s `onsuccess`. A move/copy performs
its `store.get` and the in-place splice rewriting, then continues at the
same `opIndex` (the source's `next(storeOpsIdx, opIndex)`). -/
def serialStep (engaged : Bool) (sd : StoreDef) (s : SState) : StepRes :=
  match s.ops[s.idx]? with
  | none => .fail (.typeErr "cannot destructure property of undefined") s
  | some op =>
    let ty := getFieldJ op "type"
    let key := getFieldJ op "key"
    if ty = .str "clear" then
      afterSuccess s [] .undef
    else if ty = .str "del" then
      afterSuccess s (storeDelRec s.contents key) .undef
    else
      let v := opValField op
      if ty = .str "move" ∨ ty = .str "copy" then
        let fetched := storeGetRec s.contents v
        let ops1 := s.ops.set s.idx (putDesc key fetched)
        let ops2 := if ty = .str "move" then ops1.insertIdx (s.idx + 1) (delDesc v) else ops1
        .more { s with ops := ops2 }
      else
        if uniqueViolation engaged sd s.contents key (writtenVal sd op) then
          .fail (.jsErr "Unique index ConstraintError") s
        else
          match ty with
          | .str t =>
            match engineWrite sd s.contents t key (writtenVal sd op) with
            | .ok (c', res) => afterSuccess s c' res
            | .error e => .fail e s
          | _ => .fail (.typeErr "store[type] is not a function") s

/-- Serial driver: iterate `serialStep` with fuel (structural recursion so
concrete runs evaluate; theorems about completed runs hypothesize the
`done` outcome rather than fuel adequacy). -/
def runSerial (engaged : Bool) (sd : StoreDef) : Nat → SState → StepRes
  | 0, s => .fail (.jsErr "out of fuel") s
  | fuel + 1, s =>
    match serialStep engaged sd s with
    | .more s' => runSerial engaged sd fuel s'
    | r => r

/-- Initial serial state for a canonical operation list over given contents. -/
def initState (ops : List JVal) (c : Contents) : SState :=
  ⟨ops, 0, c, []⟩

/-- Result list of a finished run. -/
def resultsOf : StepRes → Option (List JVal)
  | .done s => some s.results
  | _ => none

/-- Final operation-array contents of a finished run (what the caller's
spliced array holds after the batch). -/
def opsOf : StepRes → Option (List JVal)
  | .done s => some s.ops
  | _ => none

/-- Final store contents of a finished run. -/
def contentsOf : StepRes → Option Contents
  | .done s => some s.contents
  | _ => none

/-- Error of a failed run. -/
def errOf : StepRes → Option JErr
  | .fail e _ => some e
  | _ => none

/-- A database: store contents per store name. -/
abbrev DB := List (String × Contents)

/-- The schema of the open database: a `StoreDef` per store name. -/
abbrev Schema := List (String × StoreDef)

/-- Contents of a named store (empty when the store was never written). -/
def dbGet (db : DB) (nm : String) : Contents :=
  ((db.find? (fun p => p.1 = nm)).map (fun p => p.2)).getD []

/-- Replace the contents of a named store. -/
def dbSet (db : DB) (nm : String) (c : Contents) : DB :=
  if (db.find? (fun p => p.1 = nm)).isSome
  then db.map (fun p => if p.1 = nm then (nm, c) else p)
  else db ++ [(nm, c)]

/-- Schema of a named store. -/
def schemaGet (sch : Schema) (nm : String) : StoreDef :=
  ((sch.find? (fun p => p.1 = nm)).map (fun p => p.2)).getD plainStore

/-- What a task callback returns when invoked with the shared transaction:
an immediate value, or a deferred (promise) value that serial mode awaits
before advancing to the next unit. Task callbacks are opaque to the
orchestrator; the model records their return behavior. -/
inductive TaskRet : Type where
  | pureVal (v : JVal)
  | deferredVal (v : JVal)
deriving DecidableEq

/-- One unit of a batch plan: a store-ops object (store name to raw ops) or
a task callback. -/
inductive PlanUnit : Type where
  | storeOps (stores : List (String × JVal))
  | task (t : TaskRet)

/-- One slot of the result tree: a task's recorded return value or a
store-name-to-result-list mapping. -/
inductive UnitResult : Type where
  | fromTask (t : TaskRet)
  | fromStores (m : List (String × List JVal))
deriving DecidableEq

/-- Observable events of one `transactionalBatch` run, in order: a unit
begins (`iterateStores` reaches it), a store is opened
(`tr.objectStore(name)`), a store's requests all succeeded, a task callback
is invoked / its deferred value settles, the promise resolves, the engine
fires the transaction `complete` event, the promise rejects. -/
inductive TEvent : Type where
  | unitStarted (i : Nat)
  | storeOpened (i : Nat) (nm : String)
  | storeDone (i : Nat) (nm : String)
  | taskInvoked (i : Nat)
  | taskSettled (i : Nat)
  | resolved
  | txComplete
  | rejectedEv
deriving DecidableEq

/-- Serial iteration over the stores of one store-ops unit (the
`iterateStores` recursion over `storeOpsKeys`): canonicalize the store's raw
ops (rejecting on validation failure, before `tr.objectStore` is reached for
that store), open the store, run its operations to completion, record its
result list under its name, and move to the next store. -/
def runStoresInUnit (engaged : Bool) (sch : Schema) (i : Nat) :
    DB → List (String × JVal) → Except JErr (List (String × List JVal) × DB × List TEvent)
  | db, [] => .ok ([], db, [])
  | db, (nm, raw) :: rest =>
    match validateAndCanonicalizeOps raw with
    | .error e => .error e
    | .ok ops =>
      match runSerial engaged (schemaGet sch nm) (3 * ops.length + 1) (initState ops (dbGet db nm)) with
      | .done s =>
        match runStoresInUnit engaged sch i (dbSet db nm s.contents) rest with
        | .ok (m, db', evs) => .ok ((nm, s.results) :: m, db', .storeOpened i nm :: .storeDone i nm :: evs)
        | .error e => .error e
      | .fail e _ => .error e
      | .more _ => .error (.jsErr "ran out of fuel")

/-- Serial iteration over the plan units (`iterateStoreOps` in serial mode):
process each unit in order, invoking task callbacks (waiting on a deferred
return before advancing) and running store-ops units store by store. -/
def execUnitsSerial (engaged : Bool) (sch : Schema) :
    Nat → DB → List PlanUnit → Except JErr (List UnitResult × DB × List TEvent)
  | _, db, [] => .ok ([], db, [])
  | i, db, .task t :: rest =>
    match execUnitsSerial engaged sch (i + 1) db rest with
    | .ok (rs, db', evs) =>
        .ok (.fromTask t :: rs, db',
             .unitStarted i :: .taskInvoked i ::
               ((match t with | .deferredVal _ => [TEvent.taskSettled i] | .pureVal _ => []) ++ evs))
    | .error e => .error e
  | i, db, .storeOps stores :: rest =>
    match runStoresInUnit engaged sch i db stores with
    | .ok (m, db', evs) =>
      match execUnitsSerial engaged sch (i + 1) db' rest with
      | .ok (rs, db'', evs') => .ok (.fromStores m :: rs, db'', .unitStarted i :: (evs ++ evs'))
      | .error e => .error e
    | .error e => .error e

/-- The full ordered event trace of a serial `transactionalBatch` call, as
the source arranges it: the `complete` listener that resolves the promise is
registered only when `resolveEarly` is unset (line 95), while with
`resolveEarly` set the promise is resolved by `iterateStoreOps` as soon as
the last unit has finished being processed (line 211) — before the engine,
having no further pending requests, fires `complete`. -/
def tbTrace (resolveEarly engaged : Bool) (sch : Schema) (db : DB) (plan : List PlanUnit) :
    List TEvent :=
  match execUnitsSerial engaged sch 0 db plan with
  | .ok (_, _, evs) =>
      evs ++ (if resolveEarly then [TEvent.resolved, TEvent.txComplete]
              else [TEvent.txComplete, TEvent.resolved])
  | .error _ => [TEvent.rejectedEv]

/-- Observable outcome of an entry-point call: a synchronously thrown
exception, a rejected promise, or a promise resolving to the result tree. -/
inductive POutcome : Type where
  | thrownSync (e : JErr)
  | rejectedP (e : JErr)
  | resolvedP (rs : List UnitResult) (db : DB)
deriving DecidableEq

/-- The plan argument of `transactionalBatch` as the caller shapes it: an
array of units, a single plain store-ops object (normalized to a one-element
plan by line 85), or any other value — on which line 86's
`storeOpsArr.keys()` throws synchronously. -/
inductive TBPlanArg : Type where
  | planUnits (us : List PlanUnit)
  | singleObj (stores : List (String × JVal))
  | badPlan (v : JVal)

/-- Mirrors `transactionalBatch(tr, storeOpsArr, opts)`: argument-count
check first (rejected promise), single-object normalization, then the
promise executor running the plan. `argc` is JS `arguments.length`. -/
def tbModel (_resolveEarly engaged : Bool) (sch : Schema) (db : DB) (argc : Nat)
    (plan : TBPlanArg) : POutcome :=
  if argc = 2 ∨ argc = 3 then
    match plan with
    | .badPlan _ => .thrownSync (.typeErr "storeOpsArr.keys is not a function")
    | .singleObj stores =>
      match execUnitsSerial engaged sch 0 db [.storeOps stores] with
      | .ok (rs, db', _) => .resolvedP rs db'
      | .error e => .rejectedP e
    | .planUnits us =>
      match execUnitsSerial engaged sch 0 db us with
      | .ok (rs, db', _) => .resolvedP rs db'
      | .error e => .rejectedP e
  else .rejectedP (.typeErr "invalid arguments length")

/-- Outcome of the single-store `batch` entry point, whose promise resolves
with `arr[0][storeName]` — that store's result list. -/
inductive BOutcome : Type where
  | thrownSyncB (e : JErr)
  | rejectedB (e : JErr)
  | resolvedB (results : List JVal) (db : DB)
deriving DecidableEq

/-- Mirrors `batch(db, storeName, ops, opts)`: non-string store name and
argument count are rejected promises; `validateAndCanonicalizeOps` runs in a
`try`/`catch` whose `catch` returns `Promise.reject(err)` — so validation
failures reject before `transactionalBatch` is called, and no transaction is
created and no store is opened. On success it defers to a one-unit
`transactionalBatch` plan built from the ORIGINAL `ops` value. The second
component is the event trace ( `[]` on the early-rejection paths: no store
was opened). -/
def batchModel (engaged : Bool) (sch : Schema) (db : DB) (argc : Nat)
    (storeName : JVal) (ops : JVal) : BOutcome × List TEvent :=
  match storeName with
  | .str nm =>
    if argc = 3 ∨ argc = 4 then
      match validateAndCanonicalizeOps ops with
      | .error e => (.rejectedB e, [])
      | .ok _ =>
        match execUnitsSerial engaged sch 0 db [.storeOps [(nm, ops)]] with
        | .ok (rs, db', evs) =>
            (.resolvedB (match rs with
              | [.fromStores m] => ((m.find? (fun p => p.1 = nm)).map (fun p => p.2)).getD []
              | _ => []) db', evs)
        | .error e => (.rejectedB e, [])
    else (.rejectedB (.typeErr "invalid arguments length"), [])
  | _ => (.rejectedB (.typeErr "invalid \"storeName\""), [])

/-- Mirrors `getStoreNames(storeOpsArr)`: wrap a single plain object, then
concatenate `Object.keys` of every unit (functions contribute none). -/
def getStoreNames (storeOpsArr : JVal) : List String :=
  match (if isPlainObj storeOpsArr then JVal.arr [storeOpsArr] else storeOpsArr) with
  | .arr es => es.foldl (fun acc u => acc ++ objKeys u) []
  | _ => []

/-- A request pending in the engine's FIFO queue during a parallel-mode run
of one store's operations: a `store.get` issued by a move/copy (carrying the
`opIndex` its `onsuccess` closure captured, whether it is a move, and the
captured destination and source keys), or an issued write request carrying
the arguments captured at dispatch time. IndexedDB completes requests in
the order they were issued, so the queue is processed first-in-first-out,
and the engine applies each write when its turn comes. -/
inductive PReq : Type where
  | getReq (opIndex : Nat) (isMove : Bool) (destKey srcKey : JVal)
  | writeReq (ty : String) (key val : JVal)
deriving DecidableEq

/-- Parallel-mode execution state of one store's unit: the spliced operation
array, `moveCt`, `successCt`, contents, the result list, and the value of
`successCt` at the moment the completion check `successCt === ops.length -
moveCt` first fired (when `results[storeOpsIdx]` is assigned and the store's
unit is considered finished). -/
structure PState where
  ops : List JVal
  moveCt : Nat
  successCt : Nat
  contents : Contents
  results : List JVal
  finishedAt : Option Nat
deriving DecidableEq

/-- Mirrors one activation of `next(ct, i)` in parallel mode with native
unique-index enforcement (`countUniqueIndexes` not engaged, its callback
synchronous): the request that activation issues. Returns `none` only for
an absent index or a non-canonical type (where the source would throw). -/
def dispatchOne (sd : StoreDef) (i : Nat) (op : JVal) : Option PReq :=
  let ty := getFieldJ op "type"
  let key := getFieldJ op "key"
  if ty = .str "clear" then some (.writeReq "clear" key .undef)
  else if ty = .str "del" then some (.writeReq "del" key .undef)
  else if ty = .str "move" ∨ ty = .str "copy" then
    some (.getReq i (ty = .str "move") key (opValField op))
  else
    match ty with
    | .str "add" => some (.writeReq "add" key (writtenVal sd op))
    | .str "put" => some (.writeReq "put" key (writtenVal sd op))
    | _ => none

/-- The initial queue of a parallel run: the `for (let i = 0; i < ops.length;
i++) next(ct, i)` loop issues one request per operation, in index order. -/
def initQueue (sd : StoreDef) (ops : List JVal) : List PReq :=
  (ops.enum).filterMap (fun p => dispatchOne sd p.1 p.2)

/-- Mirrors `request`'s `onsuccess` in parallel mode: store the result at
index `successCt`, increment it, and when `successCt === ops.length - moveCt`
record that the completion check fired (the store's unit is marked finished
and `results[storeOpsIdx]` is assigned). -/
def parSuccess (st : PState) (res : JVal) (c' : Contents) : PState :=
  { st with
    contents := c',
    results := st.results ++ [res],
    successCt := st.successCt + 1,
    finishedAt :=
      if st.successCt + 1 = st.ops.length - st.moveCt
      then some (st.successCt + 1) else st.finishedAt }

/-- Process the head of the FIFO queue. A get request's `onsuccess` splices
the rewritten put (and, for a move, `moveCt++` and the extra del) into the
operation array, then dispatches `next(ct, opIndex)` and — for a move —
`next(ct, opIndex + 1)`, appending the new requests to the queue. A write
request applies its engine effect and runs `request`'s `onsuccess`. -/
def parStep (sd : StoreDef) (st : PState) :
    PReq → List PReq → Except JErr (PState × List PReq)
  | .getReq i isMove destKey srcKey, q =>
    let fetched := storeGetRec st.contents srcKey
    let ops1 := st.ops.set i (putDesc destKey fetched)
    let ops2 := if isMove then ops1.insertIdx (i + 1) (delDesc srcKey) else ops1
    let st1 : PState :=
      { st with ops := ops2, moveCt := if isMove then st.moveCt + 1 else st.moveCt }
    let newReqs :=
      (match ops2[i]? with
       | some op => (dispatchOne sd i op).toList
       | none => []) ++
      (if isMove then
        match ops2[i + 1]? with
        | some op => (dispatchOne sd (i + 1) op).toList
        | none => []
       else [])
    .ok (st1, q ++ newReqs)
  | .writeReq ty key val, q =>
    match engineWrite sd st.contents ty key val with
    | .ok (c', res) => .ok (parSuccess st res c', q)
    | .error e => .error e

/-- Parallel driver: process the FIFO queue to exhaustion (fuel-structural). -/
def runPar (sd : StoreDef) : Nat → PState → List PReq → Except JErr PState
  | _, st, [] => .ok st
  | 0, _, _ :: _ => .error (.jsErr "ran out of fuel")
  | fuel + 1, st, r :: q =>
    match parStep sd st r q with
    | .ok (st', q') => runPar sd fuel st' q'
    | .error e => .error e

/-- Initial parallel state. -/
def initPState (ops : List JVal) (c : Contents) : PState :=
  ⟨ops, 0, 0, c, [], none⟩

/-- Run one store's canonical operations in parallel mode from given
contents. -/
def runParFrom (sd : StoreDef) (fuel : Nat) (ops : List JVal) (c : Contents) :
    Except JErr PState :=
  runPar sd fuel (initPState ops c) (initQueue sd ops)

/-- Number of move operations in a canonical operation list. -/
def movesCount (ops : List JVal) : Nat :=
  (ops.filter (fun op => getFieldJ op "type" = .str "move")).length

/-- Move operations at positions `i` and beyond. -/
def movesFrom (ops : List JVal) (i : Nat) : Nat :=
  movesCount (ops.drop i)

/-- The tombstone character. -/
def tombChar : Char := Char.ofNat 0

/-- A descriptor that does NOT trigger the shorthand-by-type expansion: its
single key (if it has exactly one) is `"type"`. -/
def nonShorthand (op : JVal) : Bool :=
  match objKeys op with
  | [t] => t == "type"
  | _ => true

/-- A descriptor the canonicalization loop passes through unchanged: a plain
object, not shorthand-shaped, with a recognized type. -/
def passOk (op : JVal) : Bool :=
  isPlainObj op && nonShorthand op &&
    (match checkOp op with | .ok _ => true | .error _ => false)

/-- Total number of future request successes the queue still accounts for:
a write succeeds once; a copy's get leads to one more write, a move's get to
two. -/
def qWeight (q : List PReq) : Nat :=
  (q.map (fun r => match r with
    | .getReq _ m _ _ => if m then 2 else 1
    | .writeReq _ _ _ => 1)).sum

/-- Index bound for pending get requests. -/
def getIdxBound (q : List PReq) (n : Nat) : Prop :=
  ∀ i m d s, PReq.getReq i m d s ∈ q → i < n

/-- An operation descriptor with a recognized canonical type. -/
def opCanonical (op : JVal) : Bool :=
  match getFieldJ op "type" with
  | .str t => t ∈ validTypes
  | _ => false

/-- Sample record used by the concrete scenarios. -/
def recM1 : JVal := .obj [("name", .str "M1"), ("frequency", .num 12)]

/-- Scenario C's operation list: `[put(key=1), move(key=2,value=1),
copy(key=3,value=2)]`. -/
def scenCOps : List JVal :=
  [ .obj [("type", .str "put"), ("key", .num 1), ("value", recM1)],
    .obj [("type", .str "move"), ("key", .num 2), ("value", .num 1)],
    .obj [("type", .str "copy"), ("key", .num 3), ("value", .num 2)] ]

/-- Scenario C's operation array after the move expanded. -/
def scenCOpsMid : List JVal :=
  [ .obj [("type", .str "put"), ("key", .num 1), ("value", recM1)],
    putDesc (.num 2) recM1, delDesc (.num 1),
    .obj [("type", .str "copy"), ("key", .num 3), ("value", .num 2)] ]

/-- Scenario C's operation array after the copy also expanded. -/
def scenCOpsFinal : List JVal :=
  [ .obj [("type", .str "put"), ("key", .num 1), ("value", recM1)],
    putDesc (.num 2) recM1, delDesc (.num 1),
    putDesc (.num 3) recM1 ]

/-- The `books` store's unique simple index on `title`. -/
def ixByTitle : IndexDef := ⟨"byTitle", .simple "title", true⟩

/-- The `books` store of the test schema: out-of-line keys, a unique simple
index on `title` and a non-unique one on `author`. -/
def sdBooks : StoreDef := ⟨none, [ixByTitle, ⟨"byAuthor", .simple "author", false⟩]⟩

/-- A book record. -/
def bookRec (t a : String) : JVal :=
  .obj [("title", .str t), ("author", .str a)]

/-- The `magazines`-like store: in-line key `id` with a unique compound
index on `[name, frequency]`. -/
def sdMag : StoreDef := ⟨some "id", [⟨"byNameAndFrequency", .compound ["name", "frequency"], true⟩]⟩

/-- A magazine-like record with the given frequency and id. -/
def magRec (f : Int) (i : Int) : JVal :=
  .obj [("name", .str "m"), ("frequency", .num f), ("id", .num i)]

/-- An add of a magazine-like record (no explicit key; in-line key `id`). -/
def magAddOp (f : Int) (i : Int) : JVal :=
  .obj [("type", .str "add"), ("value", magRec f i)]

/-- Caller-supplied array-form ops: a shorthand-by-type entry followed by a
move. -/
def c10input : List JVal :=
  [ .obj [("put", .arr [.obj [("key", .num 1), ("value", .num 10)]])],
    .obj [("type", .str "move"), ("key", .num 2), ("value", .num 1)] ]

/-- What the caller's array holds after canonicalization spliced the
shorthand entry into a tagged descriptor. -/
def c10canonical : List JVal :=
  [ .obj [("key", .num 1), ("value", .num 10), ("type", .str "put")],
    .obj [("type", .str "move"), ("key", .num 2), ("value", .num 1)] ]

/-- What the caller's array holds after execution also expanded the move. -/
def c10final : List JVal :=
  [ .obj [("key", .num 1), ("value", .num 10), ("type", .str "put")],
    putDesc (.num 2) (.num 10), delDesc (.num 1) ]

instance : DecidableEq (List UnitResult × DB × List TEvent) := instDecidableEqProd

instance : DecidableEq (List (String × List JVal) × DB × List TEvent) := instDecidableEqProd

/-- A two-unit plan: one store-ops unit and one task unit. -/
def c5plan : List PlanUnit :=
  [ .storeOps [("s", .arr [.obj [("type", .str "put"), ("key", .num 1), ("value", .num 10)]])],
    .task (.pureVal (.num 7)) ]

/-- The unit events of `c5plan`'s serial run. -/
def c5evs : List TEvent :=
  [ .unitStarted 0, .storeOpened 0 "s", .storeDone 0 "s", .unitStarted 1, .taskInvoked 1 ]

/-- The result tree of `c5plan`'s serial run. -/
def c5res : List UnitResult :=
  [ .fromStores [("s", [.num 1])], .fromTask (.pureVal (.num 7)) ]

/-- The database after `c5plan`'s serial run. -/
def c5db : DB := [("s", [(.num 1, .num 10)])]

/-- A canonical put descriptor used by the C4 runs. -/
def c4put : JVal := .obj [("type", .str "put"), ("key", .num 1), ("value", .num 10)]

/-- A canonical move descriptor used by the C4 runs. -/
def c4mov : JVal := .obj [("type", .str "move"), ("key", .num 2), ("value", .num 1)]

/-- The C4 operation list: one put and one move (canonical count 2, one
injected del, so 3 underlying write requests). -/
def c4parOps : List JVal := [c4put, c4mov]

/-- The operation array once the move has expanded. -/
def c4opsX : List JVal := [c4put, putDesc (.num 2) (.num 10), delDesc (.num 1)]

/-- Final parallel-mode state of the C4 run: all 3 write requests succeeded
(successCt 3, three results), but the completion check fired at 2 successes
(`finishedAt = some 2`), i.e. at the canonical operation count. -/
def c4parFinal : PState :=
  ⟨c4opsX, 1, 3, [(.num 2, .num 10)], [.num 1, .num 2, .undef], some 2⟩

/-- Final serial-mode state of the C4 run: done after 3 successes, with the
result list as long as the expanded operation array. -/
def c4serFinal : SState :=
  ⟨c4opsX, 2, [(.num 2, .num 10)], [.num 1, .num 2, .undef]⟩

theorem runSerial_more {e : Bool} {sd : StoreDef} {n : Nat} {s : SState} (t : SState)
    (h : serialStep e sd s = .more t) :
    runSerial e sd (n + 1) s = runSerial e sd n t := by
  simp [runSerial, h]

theorem runSerial_done {e : Bool} {sd : StoreDef} {n : Nat} {s : SState} (t : SState)
    (h : serialStep e sd s = .done t) :
    runSerial e sd (n + 1) s = .done t := by
  simp [runSerial, h]

theorem runSerial_fail {e : Bool} {sd : StoreDef} {n : Nat} {s : SState} (er : JErr) (t : SState)
    (h : serialStep e sd s = .fail er t) :
    runSerial e sd (n + 1) s = .fail er t := by
  simp [runSerial, h]

theorem getElem?_of_drop_cons {l r : List JVal} {k : Nat} {a : JVal}
    (h : l.drop k = a :: r) : l[k]? = some a := by
  have hh := List.head?_drop l k
  rw [h] at hh
  exact hh.symm

theorem drop_succ_of_drop_cons {l r : List JVal} {k : Nat} {a : JVal}
    (h : l.drop k = a :: r) : l.drop (k + 1) = r := by
  have hh : l.drop (k + 1) = (l.drop k).drop 1 := by rw [List.drop_drop]
  rw [hh, h]
  rfl

theorem canonLoop_passthrough :
    ∀ (n k : Nat) (ops : List JVal), (∀ op ∈ ops, passOk op = true) →
      canonLoop n k ops = .ok ops := by
  intro n
  induction n with
  | zero => intro k ops _; rfl
  | succ m ih =>
    intro k ops h
    cases hk : ops[k]? with
    | none => simp only [canonLoop, hk]; exact ih (k + 1) ops h
    | some op =>
      have hop := h op (List.getElem?_mem hk)
      simp only [passOk, Bool.and_eq_true] at hop
      obtain ⟨⟨hplain, hshape⟩, hchk⟩ := hop
      cases hck : checkOp op with
      | error e => rw [hck] at hchk; simp at hchk
      | ok u =>
        cases hks : objKeys op with
        | nil => simp only [canonLoop, hk, hks, hplain, if_true, hck]; exact ih (k + 1) ops h
        | cons t rest =>
          cases rest with
          | nil =>
            have ht : t = "type" := by
              simp [nonShorthand, hks] at hshape; exact hshape
            subst ht
            simp only [canonLoop, hk, hks, hplain, if_true, hck]
            simp only [ne_eq, not_true_eq_false, if_false, reduceIte]
            exact ih (k + 1) ops h
          | cons t2 rest2 =>
            simp only [canonLoop, hk, hks, hplain, if_true, hck]
            exact ih (k + 1) ops h

theorem passOk_objEntry (k : String) (v : JVal) : passOk (objEntryToOp k v) = true := by
  by_cases hv : v = .str tombstone <;>
    simp [objEntryToOp, passOk, isPlainObj, nonShorthand, objKeys, checkOp, getFieldJ,
          List.find?, hv, validTypes]

theorem canonLoop_first_bad :
    ∀ (pre : List JVal) (n k : Nat) (ops : List JVal) (bad : JVal) (x : String)
      (post : List JVal),
      ops.drop k = pre ++ bad :: post →
      (∀ p ∈ pre, passOk p = true) →
      isPlainObj bad = true →
      nonShorthand bad = true →
      getFieldJ bad "type" = .str x →
      x ∉ validTypes →
      pre.length < n →
      canonLoop n k ops = .error (.typeErr ("invalid type \"" ++ x ++ "\"")) := by
  intro pre
  induction pre with
  | nil =>
    intro n k ops bad x post hdrop _ hplain hshape hty hx hlt
    simp only [List.nil_append] at hdrop
    have hk : ops[k]? = some bad := getElem?_of_drop_cons hdrop
    obtain ⟨m, rfl⟩ : ∃ m, n = m + 1 := ⟨n - 1, by omega⟩
    have hck : checkOp bad = .error (.typeErr ("invalid type \"" ++ x ++ "\"")) := by
      simp [checkOp, hty, hx]
    cases hks : objKeys bad with
    | nil => simp only [canonLoop, hk, hplain, if_true, hks, hck]
    | cons t rest =>
      cases rest with
      | nil =>
        have ht : t = "type" := by simp [nonShorthand, hks] at hshape; exact hshape
        subst ht
        simp only [canonLoop, hk, hplain, if_true, hks, hck]
        simp only [ne_eq, not_true_eq_false, if_false, reduceIte]
      | cons t2 rest2 => simp only [canonLoop, hk, hplain, if_true, hks, hck]
  | cons p0 rest ih =>
    intro n k ops bad x post hdrop hpre hplain hshape hty hx hlt
    have hk : ops[k]? = some p0 := getElem?_of_drop_cons (by rw [hdrop]; rfl)
    have hdrop' : ops.drop (k + 1) = rest ++ bad :: post :=
      drop_succ_of_drop_cons (by rw [hdrop]; rfl)
    have hp0 := hpre p0 (List.mem_cons_self p0 rest)
    simp only [passOk, Bool.and_eq_true] at hp0
    obtain ⟨⟨hplain0, hshape0⟩, hchk0⟩ := hp0
    obtain ⟨m, rfl⟩ : ∃ m, n = m + 1 := ⟨n - 1, by omega⟩
    have hrec : canonLoop m (k + 1) ops = .error (.typeErr ("invalid type \"" ++ x ++ "\"")) := by
      apply ih m (k + 1) ops bad x post hdrop'
        (fun p hp => hpre p (List.mem_cons_of_mem p0 hp)) hplain hshape hty hx
      simp only [List.length_cons] at hlt
      omega
    cases hck : checkOp p0 with
    | error e => rw [hck] at hchk0; simp at hchk0
    | ok u =>
      cases hks : objKeys p0 with
      | nil => simp only [canonLoop, hk, hplain0, if_true, hks, hck]; exact hrec
      | cons t rest2 =>
        cases rest2 with
        | nil =>
          have ht : t = "type" := by simp [nonShorthand, hks] at hshape0; exact hshape0
          subst ht
          simp only [canonLoop, hk, hplain0, if_true, hks, hck]
          simp only [ne_eq, not_true_eq_false, if_false, reduceIte]
          exact hrec
        | cons t3 rest3 =>
          simp only [canonLoop, hk, hplain0, if_true, hks, hck]
          exact hrec

theorem vco_first_bad (pre : List JVal) (bad : JVal) (x : String) (post : List JVal)
    (hpre : ∀ p ∈ pre, passOk p = true)
    (hplain : isPlainObj bad = true)
    (hshape : nonShorthand bad = true)
    (hty : getFieldJ bad "type" = .str x)
    (hx : x ∉ validTypes) :
    validateAndCanonicalizeOps (.arr (pre ++ bad :: post)) =
      .error (.typeErr ("invalid type \"" ++ x ++ "\"")) := by
  have hne : JVal.arr (pre ++ bad :: post) ≠ .str "clear" := by intro h; cases h
  simp only [validateAndCanonicalizeOps, if_neg hne]
  apply canonLoop_first_bad pre _ 0 _ bad x post (by simp) hpre hplain hshape hty hx
  simp [List.length_append]

theorem foldl_append_eq_flatten (f : JVal → List String) :
    ∀ (es : List JVal) (init : List String),
      es.foldl (fun acc u => acc ++ f u) init = init ++ (es.map f).flatten := by
  intro es
  induction es with
  | nil => intro init; simp
  | cons u rest ih => intro init; simp [ih, List.append_assoc]

/-- C3: for every plain-object keyed mapping given as an operation list,
canonicalization maps each entry `(k, v)` to a del operation on key `k` when
`v` is exactly the single-character tombstone string, and otherwise to a put
operation on key `k` whose value is `v` with exactly one leading tombstone
character stripped when `v` is a string beginning with the tombstone
character, and `v` unchanged otherwise (the validation pass leaves the
mapped entries untouched). -/
theorem c3_object_mapping_canonicalization :
    (∀ fs : List (String × JVal),
      validateAndCanonicalizeOps (.obj fs) =
        .ok (fs.map (fun p => objEntryToOp p.1 p.2)))
  ∧ (∀ (k : String) (v : JVal),
      objEntryToOp k v =
        if v = .str tombstone then
          .obj [("key", .str k), ("value", .str ""), ("type", .str "del")]
        else
          match v with
          | .str s =>
              .obj [("key", .str k),
                    ("value", .str (if s.data.head? = some tombChar then s.drop 1 else s)),
                    ("type", .str "put")]
          | w => .obj [("key", .str k), ("value", w), ("type", .str "put")]) := by
  constructor
  · intro fs
    have hne : JVal.obj fs ≠ .str "clear" := by intro h; cases h
    simp only [validateAndCanonicalizeOps, if_neg hne]
    exact canonLoop_passthrough _ 0 _ (by
      intro op hop
      obtain ⟨p, _, rfl⟩ := List.mem_map.1 hop
      exact passOk_objEntry p.1 p.2)
  · intro k v
    by_cases hv : v = .str tombstone
    · subst hv
      simp [objEntryToOp, stripTomb, tombstone, tombChar]
      decide
    · cases v <;> simp [objEntryToOp, hv, stripTomb, tombChar]

/-- C7: for every operation list of descriptor-shaped operations whose first
offending descriptor carries an unrecognized type string `x`, the `batch`
call returns a promise rejected with a TypeError whose message is exactly
`invalid type "<x>"`, and no store is opened before the rejection (the event
trace is empty: validation failed inside `batch`'s try/catch before
`transactionalBatch`, hence before any transaction or store access). -/
theorem c7_invalid_type_rejects (e : Bool) (sch : Schema) (db : DB) (nm : String)
    (pre post : List JVal) (bad : JVal) (x : String)
    (hpre : ∀ p ∈ pre, passOk p = true)
    (hplain : isPlainObj bad = true)
    (hshape : nonShorthand bad = true)
    (hty : getFieldJ bad "type" = .str x)
    (hx : x ∉ validTypes) :
    batchModel e sch db 3 (.str nm) (.arr (pre ++ bad :: post)) =
      (.rejectedB (.typeErr ("invalid type \"" ++ x ++ "\"")), []) := by
  have hv := vco_first_bad pre bad x post hpre hplain hshape hty hx
  simp [batchModel, hv]

/-- Witness for C7: the test input `[{ type: 'delete', key: 'foo' }]`
rejects with exactly `invalid type "delete"` and opens no store. -/
theorem c7_invalid_type_rejects_witness :
    batchModel false [] [] 3 (.str "magazines")
        (.arr [.obj [("type", .str "delete"), ("key", .str "foo")]]) =
      (.rejectedB (.typeErr "invalid type \"delete\""), []) := by
  have h := c7_invalid_type_rejects false [] [] "magazines" [] []
    (.obj [("type", .str "delete"), ("key", .str "foo")]) "delete"
    (by intro p hp; cases hp) (by decide) (by decide) (by decide) (by decide)
  simpa using h

/-- C8: every malformed call of the enumerated kinds — wrong argument count,
non-string store name, invalid ops value, unknown operation type or
non-object descriptor (both surfacing as a `validateAndCanonicalizeOps`
error), or a plan unit whose execution hits a validation error — yields a
REJECTED promise carrying the corresponding validation error; neither entry
point ever takes the synchronous-throw outcome on these inputs (the
`thrownSync` constructors exist in the model but are only reachable through
a non-array, non-object plan argument, which is outside the claim's
enumeration). -/
theorem c8_malformed_calls_reject (e : Bool) (sch : Schema) (db : DB) :
    (∀ (argc : Nat) (sn : JVal) (ops : JVal), (∀ s, sn ≠ .str s) →
        batchModel e sch db argc sn ops = (.rejectedB (.typeErr "invalid \"storeName\""), []))
  ∧ (∀ (argc : Nat) (nm : String) (ops : JVal), ¬ (argc = 3 ∨ argc = 4) →
        batchModel e sch db argc (.str nm) ops =
          (.rejectedB (.typeErr "invalid arguments length"), []))
  ∧ (∀ (argc : Nat) (nm : String) (ops : JVal) (er : JErr), (argc = 3 ∨ argc = 4) →
        validateAndCanonicalizeOps ops = .error er →
        batchModel e sch db argc (.str nm) ops = (.rejectedB er, []))
  ∧ (∀ (argc : Nat) (sn ops : JVal) (er : JErr),
        (batchModel e sch db argc sn ops).1 ≠ .thrownSyncB er)
  ∧ (∀ (rE : Bool) (argc : Nat) (plan : TBPlanArg), ¬ (argc = 2 ∨ argc = 3) →
        tbModel rE e sch db argc plan = .rejectedP (.typeErr "invalid arguments length"))
  ∧ (∀ (rE : Bool) (argc : Nat) (us : List PlanUnit) (er : JErr), (argc = 2 ∨ argc = 3) →
        execUnitsSerial e sch 0 db us = .error er →
        tbModel rE e sch db argc (.planUnits us) = .rejectedP er)
  ∧ (∀ (rE : Bool) (argc : Nat) (us : List PlanUnit) (er : JErr),
        tbModel rE e sch db argc (.planUnits us) ≠ .thrownSync er)
  ∧ (∀ (rE : Bool) (argc : Nat) (stores : List (String × JVal)) (er : JErr),
        tbModel rE e sch db argc (.singleObj stores) ≠ .thrownSync er) := by
  refine ⟨?_, ?_, ?_, ?_, ?_, ?_, ?_, ?_⟩
  · intro argc sn ops hsn
    cases sn <;> simp [batchModel]
    exact absurd rfl (hsn _)
  · intro argc nm ops hargc
    simp [batchModel, hargc]
  · intro argc nm ops er hargc hv
    simp [batchModel, hargc, hv]
  · intro argc sn ops er
    cases sn <;> simp only [batchModel] <;> try simp
    case str s =>
      by_cases hargc : argc = 3 ∨ argc = 4
      · simp only [if_pos hargc]
        cases hv : validateAndCanonicalizeOps ops with
        | error e2 => simp
        | ok l =>
          cases hex : execUnitsSerial e sch 0 db [.storeOps [(s, ops)]] with
          | error e3 => simp
          | ok r =>
            obtain ⟨rs, db', evs⟩ := r
            simp
      · simp [if_neg hargc]
  · intro rE argc plan hargc
    simp [tbModel, hargc]
  · intro rE argc us er hargc hex
    simp [tbModel, hargc, hex]
  · intro rE argc us er
    simp only [tbModel]
    by_cases hargc : argc = 2 ∨ argc = 3
    · simp only [if_pos hargc]
      cases hex : execUnitsSerial e sch 0 db us with
      | error e3 => simp
      | ok r => obtain ⟨rs, db', evs⟩ := r; simp
    · simp [if_neg hargc]
  · intro rE argc stores er
    simp only [tbModel]
    by_cases hargc : argc = 2 ∨ argc = 3
    · simp only [if_pos hargc]
      cases hex : execUnitsSerial e sch 0 db [.storeOps stores] with
      | error e3 => simp
      | ok r => obtain ⟨rs, db', evs⟩ := r; simp
    · simp [if_neg hargc]

/-- Witness for C8: `batch(db, 123, { a: 1 })` (argument count 3, numeric
store name) is a rejected promise with `invalid "storeName"`, and
`batch(db, 'books')` (argument count 2) rejects with
`invalid arguments length`. -/
theorem c8_malformed_calls_reject_witness :
    batchModel false [] [] 3 (.num 123) (.obj [("a", .num 1)]) =
      (.rejectedB (.typeErr "invalid \"storeName\""), [])
    ∧ batchModel false [] [] 2 (.str "books") .undef =
      (.rejectedB (.typeErr "invalid arguments length"), []) := by
  constructor
  · exact (c8_malformed_calls_reject false [] []).1 3 (.num 123) (.obj [("a", .num 1)])
      (by intro s h; cases h)
  · exact (c8_malformed_calls_reject false [] []).2.1 2 "books" .undef (by omega)

/-- C9 counterexample: a plan whose two store-ops units both reference store
`"a"` makes `getStoreNames` return `["a", "a"]` — a list with a repeated
element, so the function does not return the SET of referenced store names
as the claim states (a set contains each name once). -/
theorem c9_getStoreNames_duplicates :
    getStoreNames (.arr [.obj [("a", .str "clear")], .obj [("a", .str "clear")]]) = ["a", "a"]
    ∧ ¬ (getStoreNames (.arr [.obj [("a", .str "clear")], .obj [("a", .str "clear")]])).Nodup := by
  constructor
  · decide
  · decide

/-- C9 amended: `getStoreNames` is a pure function returning the ordered
CONCATENATION of each store-ops unit's store names, in plan order, with one
occurrence per unit referencing the store (so a name can repeat across
units); task (function) units contribute no store names; and a single
store-ops object submitted without a surrounding array is treated as the
one-element plan containing it. -/
theorem c9_getStoreNames_ordered_concatenation :
    (∀ fs : List (String × JVal),
      getStoreNames (.obj fs) = getStoreNames (.arr [.obj fs]))
  ∧ (∀ es : List JVal, getStoreNames (.arr es) = (es.map objKeys).flatten)
  ∧ (∀ (pre post : List JVal) (n : Nat),
      getStoreNames (.arr (pre ++ JVal.func n :: post)) =
        getStoreNames (.arr (pre ++ post))) := by
  refine ⟨?_, ?_, ?_⟩
  · intro fs; simp [getStoreNames, isPlainObj]
  · intro es; simp [getStoreNames, isPlainObj, foldl_append_eq_flatten objKeys]
  · intro pre post n
    simp [getStoreNames, isPlainObj, foldl_append_eq_flatten objKeys, objKeys]

/-- C1: a copy operation `{key: dest, value: src}` about to execute is
rewritten in place to a put of the record read at `src` under key `dest`; a
move is rewritten the same way with a del of `src` spliced immediately after
the rewritten put; and the serial batch
`[put(key=1), move(key=2,value=1), copy(key=3,value=2)]` against an
initially empty store finishes with the result list
`[1, 2, undefined, 3]`. -/
theorem c1_move_copy_composition :
    (∀ (e : Bool) (sd : StoreDef) (s : SState) (op : JVal),
      s.ops[s.idx]? = some op →
      getFieldJ op "type" = .str "copy" →
      serialStep e sd s =
        .more { s with ops :=
          (s.ops.set s.idx
            (putDesc (getFieldJ op "key") (storeGetRec s.contents (opValField op)))) })
  ∧ (∀ (e : Bool) (sd : StoreDef) (s : SState) (op : JVal),
      s.ops[s.idx]? = some op →
      getFieldJ op "type" = .str "move" →
      serialStep e sd s =
        .more { s with ops :=
          ((s.ops.set s.idx
            (putDesc (getFieldJ op "key") (storeGetRec s.contents (opValField op)))).insertIdx
            (s.idx + 1) (delDesc (opValField op))) })
  ∧ runSerial false plainStore 20 (initState scenCOps []) =
      .done ⟨scenCOpsFinal, 3, [(.num 2, recM1), (.num 3, recM1)],
             [.num 1, .num 2, .undef, .num 3]⟩ := by
  refine ⟨?_, ?_, ?_⟩
  · intro e sd s op hop hty
    simp [serialStep, hop, hty]
  · intro e sd s op hop hty
    simp [serialStep, hop, hty]
  · rw [show (20 : Nat) = 14 + 1 + 1 + 1 + 1 + 1 + 1 from rfl]
    rw [runSerial_more ⟨scenCOps, 1, [(.num 1, recM1)], [.num 1]⟩ (by decide)]
    rw [runSerial_more ⟨scenCOpsMid, 1, [(.num 1, recM1)], [.num 1]⟩ (by decide)]
    rw [runSerial_more ⟨scenCOpsMid, 2, [(.num 1, recM1), (.num 2, recM1)], [.num 1, .num 2]⟩
      (by decide)]
    rw [runSerial_more ⟨scenCOpsMid, 3, [(.num 2, recM1)], [.num 1, .num 2, .undef]⟩ (by decide)]
    rw [runSerial_more ⟨scenCOpsFinal, 3, [(.num 2, recM1)], [.num 1, .num 2, .undef]⟩
      (by decide)]
    rw [runSerial_done ⟨scenCOpsFinal, 3, [(.num 2, recM1), (.num 3, recM1)],
      [.num 1, .num 2, .undef, .num 3]⟩ (by decide)]

/-- Witness for C1: the copy and move rewrite parts applied at the concrete
states of Scenario C. -/
theorem c1_move_copy_composition_witness :
    serialStep false plainStore ⟨scenCOpsMid, 3, [(.num 2, recM1)], [.num 1, .num 2, .undef]⟩ =
      .more ⟨scenCOpsFinal, 3, [(.num 2, recM1)], [.num 1, .num 2, .undef]⟩
    ∧ serialStep false plainStore ⟨scenCOps, 1, [(.num 1, recM1)], [.num 1]⟩ =
      .more ⟨scenCOpsMid, 1, [(.num 1, recM1)], [.num 1]⟩ := by
  constructor
  · have h := c1_move_copy_composition.1 false plainStore
      ⟨scenCOpsMid, 3, [(.num 2, recM1)], [.num 1, .num 2, .undef]⟩
      (.obj [("type", .str "copy"), ("key", .num 3), ("value", .num 2)])
      (by decide) (by decide)
    rw [h]
    decide
  · have h := c1_move_copy_composition.2.1 false plainStore
      ⟨scenCOps, 1, [(.num 1, recM1)], [.num 1]⟩
      (.obj [("type", .str "move"), ("key", .num 2), ("value", .num 1)])
      (by decide) (by decide)
    rw [h]
    decide

theorem engineWrite_error_ne (sd : StoreDef) (c : Contents) (t : String) (key val : JVal)
    (er : JErr) (h : engineWrite sd c t key val = .error er) :
    er ≠ .jsErr "Unique index ConstraintError" := by
  intro hcontra
  subst hcontra
  simp only [engineWrite] at h
  split at h
  · simp at h
  · simp at h
  · cases hkp : sd.keyPath <;> rw [hkp] at h <;> (repeat' split at h) <;> simp_all
  · cases hkp : sd.keyPath <;> rw [hkp] at h <;> (repeat' split at h) <;> simp_all
  · simp_all

theorem afterSuccess_ne_fail (s : SState) (c' : Contents) (res : JVal) (er : JErr) (u : SState) :
    afterSuccess s c' res ≠ .fail er u := by
  unfold afterSuccess
  split <;> simp

theorem uniqueViolation_iff (sd : StoreDef) (c : Contents) (key val : JVal) :
    uniqueViolation true sd c key val = true ↔
      ∃ ix ∈ sd.indexes, keptForCheck ix val = true ∧
        ∃ pk, indexGetKey ix c (candidateIndexVal ix val) = some pk ∧
          truthy pk = true ∧ ¬ pk = key := by
  constructor
  · intro h
    simp only [uniqueViolation, countUniqueIndexes, if_true] at h
    by_cases hk : (sd.indexes.filter (fun ix => keptForCheck ix val)).isEmpty
    · rw [if_pos hk] at h; simp at h
    · rw [if_neg hk] at h
      simp only [ne_eq, decide_not, Bool.not_eq_true', decide_eq_false_iff_not] at h
      have hpos := Nat.pos_of_ne_zero h
      obtain ⟨ix, hmem, hpred⟩ := List.countP_pos_iff.1 hpos
      obtain ⟨hmem', hkept⟩ := List.mem_filter.1 hmem
      refine ⟨ix, hmem', hkept, ?_⟩
      cases hg : indexGetKey ix c (candidateIndexVal ix val) with
      | none => rw [hg] at hpred; simp at hpred
      | some pk =>
        rw [hg] at hpred
        simp only [Bool.and_eq_true, decide_eq_true_eq] at hpred
        exact ⟨pk, rfl, hpred.1, by simpa using hpred.2⟩
  · rintro ⟨ix, hmem, hkept, pk, hg, htr, hne⟩
    simp only [uniqueViolation, countUniqueIndexes, if_true]
    have hmemf : ix ∈ sd.indexes.filter (fun ix => keptForCheck ix val) :=
      List.mem_filter.2 ⟨hmem, hkept⟩
    have hne' : ¬ (sd.indexes.filter (fun ix => keptForCheck ix val)).isEmpty := by
      intro hemp
      rw [List.isEmpty_iff] at hemp
      rw [hemp] at hmemf
      cases hmemf
    rw [if_neg hne']
    have hpos : 0 < (sd.indexes.filter (fun ix => keptForCheck ix val)).countP
        (fun ix =>
          match indexGetKey ix c (candidateIndexVal ix val) with
          | some pk => truthy pk && ¬ pk = key
          | none => false) := by
      apply List.countP_pos_iff.2
      refine ⟨ix, hmemf, ?_⟩
      rw [hg]
      simp [htr, hne]
    simpa using Nat.pos_iff_ne_zero.mp hpos

theorem serialStep_addput_shape (sd : StoreDef) (s : SState) (op : JVal) (t : String)
    (hop : s.ops[s.idx]? = some op)
    (hty : getFieldJ op "type" = .str t)
    (ht : t = "add" ∨ t = "put") :
    serialStep true sd s =
      (if uniqueViolation true sd s.contents (getFieldJ op "key") (writtenVal sd op) then
        .fail (.jsErr "Unique index ConstraintError") s
      else
        match engineWrite sd s.contents t (getFieldJ op "key") (writtenVal sd op) with
        | .ok (c', res) => afterSuccess s c' res
        | .error e => .fail e s) := by
  rcases ht with rfl | rfl <;>
    (simp [serialStep, hop, hty, writtenVal, opValField]; try rfl)

/-- C2 (amended): for an add/put operation executed with the manual
unique-index validator engaged, the step rejects with an error whose message
is exactly `Unique index ConstraintError` — leaving the state (store
contents, results) untouched, i.e. the underlying write request is never
issued — if and only if some kept unique index's derived candidate key looks
up to a TRUTHY existing primary key different from the key being written
(the source tests `e.target.result && e.target.result !== key`, so a falsy
existing primary key such as `0` never counts); and re-issuing an identical
put with the same key twice in sequence raises no constraint violation,
because the matching primary key is excluded from the check. -/
theorem c2_unique_index_validation (sd : StoreDef) (s : SState) (op : JVal) (t : String)
    (hop : s.ops[s.idx]? = some op)
    (hty : getFieldJ op "type" = .str t)
    (ht : t = "add" ∨ t = "put") :
    (serialStep true sd s = .fail (.jsErr "Unique index ConstraintError") s ↔
      ∃ ix ∈ sd.indexes, keptForCheck ix (writtenVal sd op) = true ∧
        ∃ pk, indexGetKey ix s.contents (candidateIndexVal ix (writtenVal sd op)) = some pk ∧
          truthy pk = true ∧ ¬ pk = getFieldJ op "key")
    ∧ runSerial true sdBooks 5 (initState
        [.obj [("type", .str "put"), ("key", .num 1), ("value", bookRec "book" "Petr")],
         .obj [("type", .str "put"), ("key", .num 1), ("value", bookRec "book" "Petr")]] []) =
      .done ⟨[.obj [("type", .str "put"), ("key", .num 1), ("value", bookRec "book" "Petr")],
              .obj [("type", .str "put"), ("key", .num 1), ("value", bookRec "book" "Petr")]],
             1, [(.num 1, bookRec "book" "Petr")], [.num 1, .num 1]⟩ := by
  constructor
  · have hrw := uniqueViolation_iff sd s.contents (getFieldJ op "key") (writtenVal sd op)
    rw [serialStep_addput_shape sd s op t hop hty ht]
    by_cases hv : uniqueViolation true sd s.contents (getFieldJ op "key") (writtenVal sd op) = true
    · rw [if_pos (by simpa using hv)]
      exact ⟨fun _ => hrw.1 hv, fun _ => rfl⟩
    · rw [if_neg (by simpa using hv)]
      constructor
      · intro hfail
        exfalso
        cases hew : engineWrite sd s.contents t (getFieldJ op "key") (writtenVal sd op) with
        | ok r =>
          rw [hew] at hfail
          obtain ⟨c', res⟩ := r
          exact afterSuccess_ne_fail s c' res _ _ hfail
        | error e2 =>
          rw [hew] at hfail
          simp only [StepRes.fail.injEq] at hfail
          exact engineWrite_error_ne sd s.contents t (getFieldJ op "key") (writtenVal sd op) e2
            hew hfail.1
      · intro hex
        exact absurd (hrw.2 hex) hv
  · rw [show (5 : Nat) = 3 + 1 + 1 from rfl]
    rw [runSerial_more ⟨[.obj [("type", .str "put"), ("key", .num 1),
          ("value", bookRec "book" "Petr")],
        .obj [("type", .str "put"), ("key", .num 1), ("value", bookRec "book" "Petr")]],
        1, [(.num 1, bookRec "book" "Petr")], [.num 1]⟩ (by decide)]
    rw [runSerial_done ⟨[.obj [("type", .str "put"), ("key", .num 1),
          ("value", bookRec "book" "Petr")],
        .obj [("type", .str "put"), ("key", .num 1), ("value", bookRec "book" "Petr")]],
        1, [(.num 1, bookRec "book" "Petr")], [.num 1, .num 1]⟩ (by decide)]

/-- Witness for C2 (amended): a put of `{title: "book"}` under key `1` while
key `5` already stores the same title is vetoed with exactly
`Unique index ConstraintError`, the state left untouched. -/
theorem c2_unique_index_validation_witness :
    serialStep true sdBooks
        ⟨[.obj [("type", .str "put"), ("key", .num 1), ("value", bookRec "book" "Petr")]],
         0, [(.num 5, bookRec "book" "John")], []⟩ =
      .fail (.jsErr "Unique index ConstraintError")
        ⟨[.obj [("type", .str "put"), ("key", .num 1), ("value", bookRec "book" "Petr")]],
         0, [(.num 5, bookRec "book" "John")], []⟩ := by
  have h := (c2_unique_index_validation sdBooks
    ⟨[.obj [("type", .str "put"), ("key", .num 1), ("value", bookRec "book" "Petr")]],
     0, [(.num 5, bookRec "book" "John")], []⟩
    (.obj [("type", .str "put"), ("key", .num 1), ("value", bookRec "book" "Petr")])
    "put" (by decide) (by decide) (Or.inr rfl)).1
  apply h.2
  refine ⟨ixByTitle, by decide, by decide, .num 5, by decide, by decide, by decide⟩

/-- C2 counterexample: the claim's criterion — some kept unique index's
derived key maps to an existing primary key different from the key being
written — holds here (key `0` stores the same unique `title`, and `0 ≠ 1`),
yet the operation does NOT reject: the found primary key `0` is falsy, so
`e.target.result && e.target.result !== key` skips it and the write is
issued. -/
theorem c2_falsy_primary_key_counterexample :
    keptForCheck ixByTitle (bookRec "book" "Petr") = true
    ∧ indexGetKey ixByTitle [(.num 0, bookRec "book" "John")]
        (candidateIndexVal ixByTitle (bookRec "book" "Petr")) = some (.num 0)
    ∧ ¬ ((JVal.num 0) = .num 1)
    ∧ serialStep true sdBooks
        ⟨[.obj [("type", .str "put"), ("key", .num 1), ("value", bookRec "book" "Petr")]],
         0, [(.num 0, bookRec "book" "John")], []⟩ =
      .done ⟨[.obj [("type", .str "put"), ("key", .num 1), ("value", bookRec "book" "Petr")]],
             0, [(.num 0, bookRec "book" "John"), (.num 1, bookRec "book" "Petr")], [.num 1]⟩ := by
  refine ⟨by decide, by decide, by decide, by decide⟩

/-- C6: the derived candidate key of a compound index is the ordered list of
the written value's fields named by the index key path with every falsy
component removed; an index is kept for the uniqueness check iff it is
declared unique and its derived key is non-degenerate (non-empty list for a
compound index, truthy value for a simple one); consequently uniqueness is
under-enforced when a legitimate component value is falsy: adding a record
whose `name`/`frequency` duplicate an existing record is NOT vetoed when the
shared `frequency` is `0` (the falsy component is dropped, so the filtered
candidate key misses the engine's unfiltered index entry), while the same
duplication with `frequency` `5` is vetoed. -/
theorem c6_compound_index_falsy_drop :
    (∀ (nm : String) (fs : List String) (u : Bool) (val : JVal),
      candidateIndexVal ⟨nm, .compound fs, u⟩ val =
        .arr ((fs.map (fun f => getFieldJ val f)).filter truthy))
  ∧ (∀ (ix : IndexDef) (val : JVal),
      keptForCheck ix val = true ↔
        ix.unique = true ∧
          (match ix.path with
           | .compound _ => ∃ l, candidateIndexVal ix val = .arr l ∧ l ≠ []
           | .simple _ => truthy (candidateIndexVal ix val) = true))
  ∧ serialStep true sdMag ⟨[magAddOp 0 2], 0, [(.num 1, magRec 0 1)], []⟩ =
      .done ⟨[magAddOp 0 2], 0, [(.num 1, magRec 0 1), (.num 2, magRec 0 2)], [.num 2]⟩
  ∧ serialStep true sdMag ⟨[magAddOp 5 2], 0, [(.num 1, magRec 5 1)], []⟩ =
      .fail (.jsErr "Unique index ConstraintError")
        ⟨[magAddOp 5 2], 0, [(.num 1, magRec 5 1)], []⟩ := by
  refine ⟨?_, ?_, by decide, by decide⟩
  · intro nm fs u val
    rfl
  · intro ix val
    obtain ⟨nm, path, u⟩ := ix
    cases path with
    | simple f =>
      simp [keptForCheck, candidateIndexVal]
    | compound fs =>
      simp only [keptForCheck, candidateIndexVal, Bool.and_eq_true]
      constructor
      · rintro ⟨hu, hlen⟩
        refine ⟨hu, ⟨_, rfl, ?_⟩⟩
        simp only [ne_eq, decide_not, Bool.not_eq_true', decide_eq_false_iff_not] at hlen
        intro hnil
        exact hlen (by rw [hnil]; rfl)
      · rintro ⟨hu, l, hl, hne⟩
        refine ⟨hu, ?_⟩
        simp only [JVal.arr.injEq] at hl
        simp only [ne_eq, decide_not, Bool.not_eq_true', decide_eq_false_iff_not]
        intro hlen
        exact hne (by rw [← hl]; exact List.eq_nil_of_length_eq_zero hlen)

/-- C10: the caller's array-form ops array is reshaped in place: after the
call it holds the expanded canonical operations rather than the operations
originally supplied. In this functional embedding the evolving list IS the
content of the caller's array (the source mutates it with `splice`):
canonicalization turns the shorthand entry into a tagged descriptor inside
the same array, and serial execution of the move overwrites that element
with the rewritten put and splices in the extra del — so the final array
differs from both the supplied and the freshly canonicalized one. -/
theorem c10_in_place_mutation :
    validateAndCanonicalizeOps (.arr c10input) = .ok c10canonical
    ∧ c10canonical ≠ c10input
    ∧ runSerial false plainStore 10 (initState c10canonical []) =
        .done ⟨c10final, 2, [(.num 2, .num 10)], [.num 1, .num 2, .undef]⟩
    ∧ c10final ≠ c10canonical
    ∧ c10final ≠ c10input := by
  refine ⟨by decide, by decide, ?_, by decide, by decide⟩
  rw [show (10 : Nat) = 6 + 1 + 1 + 1 + 1 from rfl]
  rw [runSerial_more ⟨c10canonical, 1, [(.num 1, .num 10)], [.num 1]⟩ (by decide)]
  rw [runSerial_more ⟨c10final, 1, [(.num 1, .num 10)], [.num 1]⟩ (by decide)]
  rw [runSerial_more ⟨c10final, 2, [(.num 1, .num 10), (.num 2, .num 10)], [.num 1, .num 2]⟩
    (by decide)]
  rw [runSerial_done ⟨c10final, 2, [(.num 2, .num 10)], [.num 1, .num 2, .undef]⟩ (by decide)]


theorem runStoresInUnit_events (e : Bool) (sch : Schema) (i : Nat) :
    ∀ (stores : List (String × JVal)) (db : DB) (m : List (String × List JVal)) (db' : DB)
      (evs : List TEvent),
      runStoresInUnit e sch i db stores = .ok (m, db', evs) →
      ∀ ev ∈ evs, (∃ nm, ev = .storeOpened i nm) ∨ (∃ nm, ev = .storeDone i nm) := by
  intro stores
  induction stores with
  | nil =>
    intro db m db' evs h ev hev
    simp only [runStoresInUnit] at h
    obtain ⟨rfl, rfl, rfl⟩ := by
      simpa using h
    cases hev
  | cons p rest ih =>
    intro db m db' evs h ev hev
    obtain ⟨nm, raw⟩ := p
    simp only [runStoresInUnit] at h
    cases hv : validateAndCanonicalizeOps raw with
    | error er => simp only [hv] at h; cases h
    | ok ops =>
      simp only [hv] at h
      cases hr : runSerial e (schemaGet sch nm) (3 * ops.length + 1) (initState ops (dbGet db nm)) with
      | more s2 => simp only [hr] at h; cases h
      | fail er s2 => simp only [hr] at h; cases h
      | done s2 =>
        simp only [hr] at h
        cases hrest : runStoresInUnit e sch i (dbSet db nm s2.contents) rest with
        | error er => simp only [hrest] at h; cases h
        | ok r =>
          obtain ⟨m2, db2, evs2⟩ := r
          simp only [hrest, Except.ok.injEq, Prod.mk.injEq] at h
          obtain ⟨rfl, rfl, rfl⟩ := h
          simp only [List.mem_cons] at hev
          rcases hev with rfl | rfl | hev
          · exact Or.inl ⟨nm, rfl⟩
          · exact Or.inr ⟨nm, rfl⟩
          · exact ih (dbSet db nm s2.contents) m2 db2 evs2 hrest ev hev

theorem execUnitsSerial_events (e : Bool) (sch : Schema) :
    ∀ (plan : List PlanUnit) (i : Nat) (db : DB) (rs : List UnitResult) (db' : DB)
      (evs : List TEvent),
      execUnitsSerial e sch i db plan = .ok (rs, db', evs) →
      (∀ ev ∈ evs, ev ≠ .resolved ∧ ev ≠ .txComplete ∧ ev ≠ .rejectedEv)
      ∧ (∀ j, j < plan.length → TEvent.unitStarted (i + j) ∈ evs) := by
  intro plan
  induction plan with
  | nil =>
    intro i db rs db' evs h
    simp only [execUnitsSerial] at h
    obtain ⟨rfl, rfl, rfl⟩ := h
    exact ⟨fun ev hev => absurd hev (by simp), fun j hj => absurd hj (by simp)⟩
  | cons u rest ih =>
    intro i db rs db' evs h
    cases u with
    | task t =>
      simp only [execUnitsSerial] at h
      cases hrest : execUnitsSerial e sch (i + 1) db rest with
      | error er => simp only [hrest] at h; cases h
      | ok r =>
        obtain ⟨rs2, db2, evs2⟩ := r
        simp only [hrest, Except.ok.injEq, Prod.mk.injEq] at h
        obtain ⟨rfl, rfl, rfl⟩ := h
        obtain ⟨ihm, ihs⟩ := ih (i + 1) db rs2 db2 evs2 hrest
        constructor
        · intro ev hev
          simp only [List.mem_cons, List.mem_append] at hev
          rcases hev with rfl | rfl | hev | hev
          · simp
          · simp
          · cases t <;> simp_all
          · exact ihm ev hev
        · intro j hj
          cases j with
          | zero => simp
          | succ j2 =>
            have := ihs j2 (by simpa using hj)
            simp only [List.mem_cons, List.mem_append]
            right; right; right
            have harith : i + (j2 + 1) = i + 1 + j2 := by omega
            rw [harith]
            exact this
    | storeOps stores =>
      simp only [execUnitsSerial] at h
      cases hrun : runStoresInUnit e sch i db stores with
      | error er => simp only [hrun] at h; cases h
      | ok r =>
        obtain ⟨m, db2, evs2⟩ := r
        simp only [hrun] at h
        cases hrest : execUnitsSerial e sch (i + 1) db2 rest with
        | error er => simp only [hrest] at h; cases h
        | ok r2 =>
          obtain ⟨rs3, db3, evs3⟩ := r2
          simp only [hrest, Except.ok.injEq, Prod.mk.injEq] at h
          obtain ⟨rfl, rfl, rfl⟩ := h
          obtain ⟨ihm, ihs⟩ := ih (i + 1) db2 rs3 db3 evs3 hrest
          constructor
          · intro ev hev
            simp only [List.mem_cons, List.mem_append] at hev
            rcases hev with rfl | hev | hev
            · simp
            · rcases runStoresInUnit_events e sch i stores db m db2 evs2 hrun ev hev with
                ⟨nm, rfl⟩ | ⟨nm, rfl⟩ <;> simp
            · exact ihm ev hev
          · intro j hj
            cases j with
            | zero => simp
            | succ j2 =>
              have := ihs j2 (by simpa using hj)
              simp only [List.mem_cons, List.mem_append]
              right; right
              have harith : i + (j2 + 1) = i + 1 + j2 := by omega
              rw [harith]
              exact this

/-- C5: with all units succeeding, the serial `transactionalBatch` trace
resolves only AFTER the transaction's completion event when `resolveEarly`
is unset, and BEFORE it when `resolveEarly` is set — in the latter case the
resolution still comes after every plan unit has been initiated (every
`unitStarted`, and hence every store request dispatch and task invocation,
lies in the unit-event prefix that precedes the resolution), and the
transaction is still open at resolution time (its completion event follows),
so the caller can keep issuing work on the same handle. -/
theorem c5_resolveEarly_timing (e : Bool) (sch : Schema) (db : DB) (plan : List PlanUnit)
    (rs : List UnitResult) (dbF : DB) (evs : List TEvent)
    (h : execUnitsSerial e sch 0 db plan = .ok (rs, dbF, evs)) :
    tbTrace false e sch db plan = evs ++ [TEvent.txComplete, TEvent.resolved]
    ∧ tbTrace true e sch db plan = evs ++ [TEvent.resolved, TEvent.txComplete]
    ∧ TEvent.resolved ∉ evs
    ∧ TEvent.txComplete ∉ evs
    ∧ (∀ j, j < plan.length → TEvent.unitStarted j ∈ evs) := by
  obtain ⟨hmem, hstart⟩ := execUnitsSerial_events e sch plan 0 db rs dbF evs h
  refine ⟨by simp [tbTrace, h], by simp [tbTrace, h], ?_, ?_, ?_⟩
  · intro hin
    exact (hmem _ hin).1 rfl
  · intro hin
    exact (hmem _ hin).2.1 rfl
  · intro j hj
    simpa using hstart j hj

/-- Witness for C5: on the concrete two-unit plan `c5plan`, the default
trace ends `…, txComplete, resolved` while the `resolveEarly` trace ends
`…, resolved, txComplete`. -/
theorem c5_resolveEarly_timing_witness :
    tbTrace false false [] [] c5plan = c5evs ++ [TEvent.txComplete, TEvent.resolved]
    ∧ tbTrace true false [] [] c5plan = c5evs ++ [TEvent.resolved, TEvent.txComplete] := by
  have h : execUnitsSerial false [] 0 [] c5plan = .ok (c5res, c5db, c5evs) := by decide
  exact ⟨(c5_resolveEarly_timing false [] [] c5plan c5res c5db c5evs h).1,
         (c5_resolveEarly_timing false [] [] c5plan c5res c5db c5evs h).2.1⟩

theorem drop_eq_cons_of_getElem? {α : Type} {l : List α} {i : Nat} {a : α}
    (h : l[i]? = some a) : l.drop i = a :: l.drop (i + 1) := by
  have h1 : (l.drop i).head? = some a := by rw [List.head?_drop]; exact h
  have h2 := List.tail_drop l i
  cases hd : l.drop i with
  | nil => rw [hd] at h1; cases h1
  | cons x t =>
    rw [hd] at h1 h2
    simp only [List.head?_cons, Option.some.injEq] at h1
    subst h1
    simp only [List.tail_cons] at h2
    rw [h2]

theorem drop_set_cons {α : Type} :
    ∀ (l : List α) (i : Nat) (a : α), i < l.length →
      (l.set i a).drop i = a :: l.drop (i + 1)
  | [], i, a, h => absurd h (by simp)
  | x :: xs, 0, a, _ => rfl
  | x :: xs, i + 1, a, h => by
      simp only [List.set_cons_succ, List.drop_succ_cons]
      exact drop_set_cons xs i a (by simpa using h)

theorem drop_set_insert_cons {α : Type} :
    ∀ (l : List α) (i : Nat) (a b : α), i < l.length →
      ((l.set i a).insertIdx (i + 1) b).drop i = a :: b :: l.drop (i + 1)
  | [], i, a, b, h => absurd h (by simp)
  | x :: xs, 0, a, b, _ => rfl
  | x :: xs, i + 1, a, b, h => by
      simp only [List.set_cons_succ, List.insertIdx_succ_cons, List.drop_succ_cons]
      exact drop_set_insert_cons xs i a b (by simpa using h)

theorem serialStep_cases (e : Bool) (sd : StoreDef) (s : SState) :
    (∃ er, serialStep e sd s = .fail er s) ∨
    (∃ op, s.ops[s.idx]? = some op ∧
      ((getFieldJ op "type" = .str "move" ∧
        serialStep e sd s = .more { s with ops :=
          ((s.ops.set s.idx
            (putDesc (getFieldJ op "key") (storeGetRec s.contents (opValField op)))).insertIdx
            (s.idx + 1) (delDesc (opValField op))) })
       ∨ (getFieldJ op "type" ≠ .str "move" ∧ getFieldJ op "type" = .str "copy" ∧
          serialStep e sd s = .more { s with ops :=
            (s.ops.set s.idx
              (putDesc (getFieldJ op "key") (storeGetRec s.contents (opValField op)))) })
       ∨ (getFieldJ op "type" ≠ .str "move" ∧ getFieldJ op "type" ≠ .str "copy" ∧
          ∃ c2 res, serialStep e sd s = afterSuccess s c2 res))) := by
  cases hop : s.ops[s.idx]? with
  | none =>
    exact Or.inl ⟨.typeErr "cannot destructure property of undefined", by simp [serialStep, hop]⟩
  | some op =>
    by_cases hclear : getFieldJ op "type" = .str "clear"
    · exact Or.inr ⟨op, rfl, Or.inr (Or.inr ⟨by rw [hclear]; decide, by rw [hclear]; decide,
        [], .undef, by simp [serialStep, hop, hclear]⟩)⟩
    · by_cases hdel : getFieldJ op "type" = .str "del"
      · exact Or.inr ⟨op, rfl, Or.inr (Or.inr ⟨by rw [hdel]; decide, by rw [hdel]; decide,
          storeDelRec s.contents (getFieldJ op "key"), .undef,
          by simp [serialStep, hop, hclear, hdel]⟩)⟩
      · by_cases hmove : getFieldJ op "type" = .str "move"
        · exact Or.inr ⟨op, rfl, Or.inl ⟨hmove,
            by simp [serialStep, hop, hclear, hdel, hmove]⟩⟩
        · by_cases hcopy : getFieldJ op "type" = .str "copy"
          · exact Or.inr ⟨op, rfl, Or.inr (Or.inl ⟨hmove, hcopy,
              by simp [serialStep, hop, hclear, hdel, hmove, hcopy]⟩)⟩
          · by_cases hv : uniqueViolation e sd s.contents (getFieldJ op "key")
                (writtenVal sd op) = true
            · refine Or.inl ⟨.jsErr "Unique index ConstraintError", ?_⟩
              simp [serialStep, hop, hclear, hdel, hmove, hcopy, hv]
            · cases hty : getFieldJ op "type" with
              | str t =>
                have hclear' : ¬ t = "clear" := by rw [hty] at hclear; simpa using hclear
                have hdel' : ¬ t = "del" := by rw [hty] at hdel; simpa using hdel
                have hmove' : ¬ t = "move" := by rw [hty] at hmove; simpa using hmove
                have hcopy' : ¬ t = "copy" := by rw [hty] at hcopy; simpa using hcopy
                cases hew : engineWrite sd s.contents t (getFieldJ op "key")
                    (writtenVal sd op) with
                | ok r =>
                  obtain ⟨c2, res⟩ := r
                  refine Or.inr ⟨op, rfl, Or.inr (Or.inr ⟨hmove, hcopy, c2, res, ?_⟩)⟩
                  simp [serialStep, hop, hclear', hdel', hmove', hcopy', hv, hty, hew]
                | error e2 =>
                  refine Or.inl ⟨e2, ?_⟩
                  simp [serialStep, hop, hclear', hdel', hmove', hcopy', hv, hty, hew]
              | undef => exact Or.inl ⟨.typeErr "store[type] is not a function",
                  by simp [serialStep, hop, hclear, hdel, hmove, hcopy, hv, hty]⟩
              | null => exact Or.inl ⟨.typeErr "store[type] is not a function",
                  by simp [serialStep, hop, hclear, hdel, hmove, hcopy, hv, hty]⟩
              | jbool b => exact Or.inl ⟨.typeErr "store[type] is not a function",
                  by simp [serialStep, hop, hclear, hdel, hmove, hcopy, hv, hty]⟩
              | num n => exact Or.inl ⟨.typeErr "store[type] is not a function",
                  by simp [serialStep, hop, hclear, hdel, hmove, hcopy, hv, hty]⟩
              | obj fs => exact Or.inl ⟨.typeErr "store[type] is not a function",
                  by simp [serialStep, hop, hclear, hdel, hmove, hcopy, hv, hty]⟩
              | arr es => exact Or.inl ⟨.typeErr "store[type] is not a function",
                  by simp [serialStep, hop, hclear, hdel, hmove, hcopy, hv, hty]⟩
              | func n => exact Or.inl ⟨.typeErr "store[type] is not a function",
                  by simp [serialStep, hop, hclear, hdel, hmove, hcopy, hv, hty]⟩

theorem movesCount_cons (op : JVal) (l : List JVal) :
    movesCount (op :: l) =
      (if getFieldJ op "type" = .str "move" then 1 else 0) + movesCount l := by
  simp only [movesCount, List.filter]
  split <;> rename_i hc <;> simp_all <;> omega

theorem runSerial_done_counts (e : Bool) (sd : StoreDef) :
    ∀ (fuel : Nat) (s s' : SState),
      runSerial e sd fuel s = .done s' →
      s.results.length = s.idx →
      s'.results.length = s'.ops.length ∧
      s'.ops.length = s.ops.length + movesFrom s.ops s.idx := by
  intro fuel
  induction fuel with
  | zero =>
    intro s s' h _
    simp [runSerial] at h
  | succ n ih =>
    intro s s' h hres
    rcases serialStep_cases e sd s with ⟨er, hstep⟩ | ⟨op, hop, hcase⟩
    · rw [runSerial, hstep] at h; cases h
    · have hidx : s.idx < s.ops.length := by
        rcases List.getElem?_eq_some_iff.1 hop with ⟨hl, _⟩; exact hl
      have hdropc : s.ops.drop s.idx = op :: s.ops.drop (s.idx + 1) :=
        drop_eq_cons_of_getElem? hop
      rcases hcase with ⟨hmv, hstep⟩ | ⟨hnm, hcp, hstep⟩ | ⟨hnm, hnc, c2, res, hstep⟩
      · rw [runSerial, hstep] at h
        obtain ⟨h1, h2⟩ := ih _ s' h hres
        refine ⟨h1, ?_⟩
        rw [h2]
        simp only
        have hlen1 : ((s.ops.set s.idx
            (putDesc (getFieldJ op "key") (storeGetRec s.contents (opValField op)))).insertIdx
            (s.idx + 1) (delDesc (opValField op))).length = s.ops.length + 1 := by
          rw [List.length_insertIdx _ _ (by simpa using hidx)]
          simp
        rw [hlen1]
        have hmf1 : movesFrom ((s.ops.set s.idx
            (putDesc (getFieldJ op "key") (storeGetRec s.contents (opValField op)))).insertIdx
            (s.idx + 1) (delDesc (opValField op))) s.idx
            = movesCount (s.ops.drop (s.idx + 1)) := by
          unfold movesFrom
          rw [drop_set_insert_cons _ _ _ _ hidx]
          rw [movesCount_cons, movesCount_cons]
          simp [putDesc, delDesc, getFieldJ]
          try omega
        have hmf0 : movesFrom s.ops s.idx = 1 + movesCount (s.ops.drop (s.idx + 1)) := by
          unfold movesFrom
          rw [hdropc, movesCount_cons, if_pos hmv]
        rw [hmf1, hmf0]
        omega
      · rw [runSerial, hstep] at h
        obtain ⟨h1, h2⟩ := ih _ s' h hres
        refine ⟨h1, ?_⟩
        rw [h2]
        simp only [List.length_set]
        have hmf1 : movesFrom (s.ops.set s.idx
            (putDesc (getFieldJ op "key") (storeGetRec s.contents (opValField op)))) s.idx
            = movesCount (s.ops.drop (s.idx + 1)) := by
          unfold movesFrom
          rw [drop_set_cons _ _ _ hidx, movesCount_cons]
          simp [putDesc, getFieldJ]
          try omega
        have hmf0 : movesFrom s.ops s.idx = movesCount (s.ops.drop (s.idx + 1)) := by
          unfold movesFrom
          rw [hdropc, movesCount_cons, if_neg hnm]
          omega
        rw [hmf1, hmf0]
      · have hmf0 : movesFrom s.ops s.idx = movesCount (s.ops.drop (s.idx + 1)) := by
          unfold movesFrom
          rw [hdropc, movesCount_cons, if_neg hnm]
          omega
        rw [runSerial, hstep] at h
        unfold afterSuccess at h
        by_cases hlen : s.results.length + 1 = s.ops.length
        · rw [if_pos hlen] at h
          simp only at h
          cases h
          constructor
          · simpa using hlen
          · have hdropnil : s.ops.drop (s.idx + 1) = [] := by
              apply List.drop_eq_nil_of_le
              omega
            simp only
            rw [hmf0, hdropnil]
            simp [movesCount]
        · rw [if_neg hlen] at h
          obtain ⟨h1, h2⟩ := ih _ s' h (by simpa using hres)
          refine ⟨h1, ?_⟩
          rw [h2]
          simp only
          have hmf2 : movesFrom s.ops (s.idx + 1) = movesCount (s.ops.drop (s.idx + 1)) := rfl
          rw [hmf2, hmf0]

theorem dispatchOne_putDesc (sd : StoreDef) (i : Nat) (k v : JVal) :
    dispatchOne sd i (putDesc k v) =
      some (.writeReq "put" k (writtenVal sd (putDesc k v))) := by
  simp [dispatchOne, putDesc, getFieldJ]

theorem dispatchOne_delDesc (sd : StoreDef) (i : Nat) (k : JVal) :
    dispatchOne sd i (delDesc k) = some (.writeReq "del" k .undef) := by
  simp [dispatchOne, delDesc, getFieldJ]

theorem qWeight_cons (r : PReq) (q : List PReq) :
    qWeight (r :: q) =
      (match r with
       | PReq.getReq _ m _ _ => if m then 2 else 1
       | PReq.writeReq _ _ _ => 1) + qWeight q := by
  cases r <;> simp [qWeight]

theorem dispatchOne_weight (sd : StoreDef) (j : Nat) (op : JVal)
    (h : opCanonical op = true) :
    ∃ r, dispatchOne sd j op = some r ∧
      (match r with
       | PReq.getReq _ m _ _ => if m then 2 else 1
       | PReq.writeReq _ _ _ => 1) =
      (if getFieldJ op "type" = .str "move" then 1 else 0) + 1 := by
  simp only [opCanonical] at h
  cases hty : getFieldJ op "type" with
  | str t =>
    rw [hty] at h
    have hmem : t ∈ validTypes := by simpa using h
    simp only [validTypes, List.mem_cons, List.not_mem_nil, or_false] at hmem
    rcases hmem with rfl | rfl | rfl | rfl | rfl | rfl
    · exact ⟨.writeReq "add" (getFieldJ op "key") (writtenVal sd op),
        by simp [dispatchOne, hty], by simp [hty]⟩
    · exact ⟨.writeReq "put" (getFieldJ op "key") (writtenVal sd op),
        by simp [dispatchOne, hty], by simp [hty]⟩
    · exact ⟨.writeReq "del" (getFieldJ op "key") .undef,
        by simp [dispatchOne, hty], by simp [hty]⟩
    · exact ⟨.getReq j true (getFieldJ op "key") (opValField op),
        by simp [dispatchOne, hty], by simp [hty]⟩
    · exact ⟨.getReq j false (getFieldJ op "key") (opValField op),
        by simp [dispatchOne, hty], by simp [hty]⟩
    · exact ⟨.writeReq "clear" (getFieldJ op "key") .undef,
        by simp [dispatchOne, hty], by simp [hty]⟩
  | undef => rw [hty] at h; simp at h
  | null => rw [hty] at h; simp at h
  | jbool b => rw [hty] at h; simp at h
  | num n => rw [hty] at h; simp at h
  | obj fs => rw [hty] at h; simp at h
  | arr es => rw [hty] at h; simp at h
  | func n => rw [hty] at h; simp at h

theorem qWeight_enumFrom (sd : StoreDef) :
    ∀ (ops : List JVal) (j : Nat), (∀ op ∈ ops, opCanonical op = true) →
      qWeight ((List.enumFrom j ops).filterMap (fun p => dispatchOne sd p.1 p.2)) =
        ops.length + movesCount ops := by
  intro ops
  induction ops with
  | nil => intro j _; simp [qWeight, movesCount]
  | cons op rest ih =>
    intro j h
    obtain ⟨r, hr, hw⟩ := dispatchOne_weight sd j op (h op (List.mem_cons_self _ _))
    rw [List.enumFrom_cons]
    simp only [List.filterMap_cons, hr]
    rw [qWeight_cons, hw, ih (j + 1) (fun o ho => h o (List.mem_cons_of_mem _ ho))]
    rw [movesCount_cons]
    simp only [List.length_cons]
    omega

theorem dispatchOne_getReq_idx (sd : StoreDef) (j : Nat) (op : JVal) (i : Nat) (m : Bool)
    (d s2 : JVal) (h : dispatchOne sd j op = some (.getReq i m d s2)) : i = j := by
  simp only [dispatchOne] at h
  split at h
  · simp at h
  · split at h
    · simp at h
    · split at h
      · simp only [Option.some.injEq, PReq.getReq.injEq] at h
        exact h.1.symm
      · split at h <;> simp_all

theorem initQueue_bound (sd : StoreDef) (ops : List JVal) :
    getIdxBound (initQueue sd ops) ops.length := by
  intro i m d s2 hmem
  simp only [initQueue, List.mem_filterMap] at hmem
  obtain ⟨⟨j, op⟩, hmemE, hd⟩ := hmem
  have hij : i = j := dispatchOne_getReq_idx sd j op i m d s2 hd
  subst hij
  simp only [List.enum] at hmemE
  obtain ⟨_, hlt, _⟩ := List.mem_enumFrom hmemE
  omega

theorem runPar_counts (sd : StoreDef) :
    ∀ (fuel : Nat) (q : List PReq) (st stF : PState) (n m0 : Nat),
      runPar sd fuel st q = .ok stF →
      st.ops.length = n + st.moveCt →
      st.successCt = st.results.length →
      st.successCt + qWeight q = m0 →
      getIdxBound q st.ops.length →
      ((st.finishedAt = some n ∧ n ≤ st.successCt) ∨ (st.finishedAt = none ∧ st.successCt < n)) →
      stF.results.length = m0 ∧ stF.successCt = m0 ∧
        ((stF.finishedAt = some n ∧ n ≤ m0) ∨ (stF.finishedAt = none ∧ m0 < n)) := by
  intro fuel
  induction fuel with
  | zero =>
    intro q st stF n m0 h hA hC hB hE hD
    cases q with
    | nil =>
      simp only [runPar, Except.ok.injEq] at h
      subst h
      simp only [qWeight, List.map_nil, List.sum_nil, Nat.add_zero] at hB
      subst hB
      refine ⟨hC.symm, rfl, ?_⟩
      rcases hD with ⟨hf, hn⟩ | ⟨hf, hn⟩
      · exact Or.inl ⟨hf, hn⟩
      · exact Or.inr ⟨hf, hn⟩
    | cons r q2 => simp [runPar] at h
  | succ fu ih =>
    intro q st stF n m0 h hA hC hB hE hD
    cases q with
    | nil =>
      simp only [runPar, Except.ok.injEq] at h
      subst h
      simp only [qWeight, List.map_nil, List.sum_nil, Nat.add_zero] at hB
      subst hB
      refine ⟨hC.symm, rfl, ?_⟩
      rcases hD with ⟨hf, hn⟩ | ⟨hf, hn⟩
      · exact Or.inl ⟨hf, hn⟩
      · exact Or.inr ⟨hf, hn⟩
    | cons r q2 =>
      cases r with
      | getReq i isMove destKey srcKey =>
        have hi : i < st.ops.length := hE i isMove destKey srcKey (List.mem_cons_self _ _)
        simp only [runPar, parStep] at h
        cases isMove with
        | false =>
          rw [if_neg (by simp)] at h
          have hget : (st.ops.set i
              (putDesc destKey (storeGetRec st.contents srcKey)))[i]? =
              some (putDesc destKey (storeGetRec st.contents srcKey)) :=
            getElem?_of_drop_cons (drop_set_cons _ _ _ hi)
          rw [hget] at h
          simp only [dispatchOne_putDesc, Option.toList_some, if_neg (by simp : ¬ False),
            List.append_nil] at h
          refine ih _ _ stF n m0 h ?hA2 ?hC2 ?hB2 ?hE2 ?hD2
          case hA2 => simpa using hA
          case hC2 => simpa using hC
          case hB2 =>
            simp [qWeight, List.sum_append] at hB ⊢
            omega
          case hE2 =>
            intro j m d s2 hmem
            have hj : PReq.getReq j m d s2 ∈ q2 := by
              simp only [List.mem_append, List.mem_cons, List.not_mem_nil, or_false] at hmem
              rcases hmem with hmem | hmem
              · exact hmem
              · exact absurd hmem (by simp)
            have := hE j m d s2 (List.mem_cons_of_mem _ hj)
            simpa using this
          case hD2 => simpa using hD
        | true =>
          rw [if_pos rfl] at h
          have hdrop2 := drop_set_insert_cons st.ops i
            (putDesc destKey (storeGetRec st.contents srcKey)) (delDesc srcKey) hi
          have hget1 := getElem?_of_drop_cons hdrop2
          have hget2 := getElem?_of_drop_cons (drop_succ_of_drop_cons hdrop2)
          rw [hget1, hget2] at h
          simp only [dispatchOne_putDesc, dispatchOne_delDesc, Option.toList_some,
            if_pos rfl] at h
          refine ih _ _ stF n m0 h ?hA3 ?hC3 ?hB3 ?hE3 ?hD3
          case hA3 =>
            simp only [reduceIte]
            rw [List.length_insertIdx _ _ (by simpa using Nat.succ_le_of_lt hi)]
            simp only [List.length_set]
            omega
          case hC3 => simpa using hC
          case hB3 =>
            simp [qWeight, List.sum_append] at hB ⊢
            omega
          case hE3 =>
            intro j m d s2 hmem
            have hj : PReq.getReq j m d s2 ∈ q2 := by
              simp only [List.mem_append, List.mem_cons, List.not_mem_nil, or_false] at hmem
              rcases hmem with hmem | hmem | hmem
              · exact hmem
              · exact absurd hmem (by simp)
              · exact absurd hmem (by simp)
            have hlt := hE j m d s2 (List.mem_cons_of_mem _ hj)
            simp only at hlt ⊢
            rw [List.length_insertIdx _ _ (by simpa using Nat.succ_le_of_lt hi)]
            simp only [List.length_set]
            omega
          case hD3 => simpa using hD
      | writeReq ty key val =>
        simp only [runPar, parStep] at h
        cases hew : engineWrite sd st.contents ty key val with
        | error e2 => rw [hew] at h; simp at h
        | ok r2 =>
          obtain ⟨c2, res⟩ := r2
          rw [hew] at h
          simp only at h
          refine ih _ _ stF n m0 h ?hA4 ?hC4 ?hB4 ?hE4 ?hD4
          case hA4 => simp only [parSuccess]; simpa using hA
          case hC4 => simp only [parSuccess]; simp [hC]
          case hB4 =>
            simp only [parSuccess]
            simp [qWeight] at hB ⊢
            omega
          case hE4 =>
            intro j m d s2 hmem
            have := hE j m d s2 (List.mem_cons_of_mem _ hmem)
            simpa [parSuccess] using this
          case hD4 =>
            have hthr : st.ops.length - st.moveCt = n := by omega
            simp only [parSuccess]
            by_cases hf : st.successCt + 1 = st.ops.length - st.moveCt
            · rw [if_pos hf]
              left
              constructor
              · simp only [Option.some.injEq]
                omega
              · omega
            · rw [if_neg hf]
              rcases hD with ⟨hfin, hle⟩ | ⟨hfin, hlt⟩
              · exact Or.inl ⟨hfin, by omega⟩
              · exact Or.inr ⟨hfin, by omega⟩

theorem runParFrom_counts (sd : StoreDef) (fuel : Nat) (ops : List JVal) (c : Contents)
    (stF : PState) (hcanon : ∀ op ∈ ops, opCanonical op = true) (hne : ops ≠ [])
    (h : runParFrom sd fuel ops c = .ok stF) :
    stF.results.length = ops.length + movesCount ops ∧
    stF.successCt = ops.length + movesCount ops ∧
    stF.finishedAt = some ops.length := by
  have hq : qWeight (initQueue sd ops) = ops.length + movesCount ops := by
    have h2 := qWeight_enumFrom sd ops 0 hcanon
    simpa [initQueue, List.enum] using h2
  have hpos : 0 < ops.length := by
    cases ops with
    | nil => exact absurd rfl hne
    | cons a l => simp
  have h' : runPar sd fuel (initPState ops c) (initQueue sd ops) = .ok stF := h
  obtain ⟨h1, h2, h3⟩ := runPar_counts sd fuel (initQueue sd ops) (initPState ops c) stF
    ops.length (ops.length + movesCount ops) h' rfl rfl
    (by simp only [initPState, Nat.zero_add]; exact hq)
    (initQueue_bound sd ops)
    (Or.inr ⟨rfl, hpos⟩)
  refine ⟨h1, h2, ?_⟩
  rcases h3 with ⟨hf, _⟩ | ⟨_, hlt⟩
  · exact hf
  · exact absurd hlt (by omega)

theorem runStoresInUnit_names (e : Bool) (sch : Schema) (i : Nat) :
    ∀ (stores : List (String × JVal)) (db : DB) (m : List (String × List JVal)) (db' : DB)
      (evs : List TEvent),
      runStoresInUnit e sch i db stores = .ok (m, db', evs) →
      m.map (fun p => p.1) = stores.map (fun p => p.1) := by
  intro stores
  induction stores with
  | nil =>
    intro db m db' evs h
    simp only [runStoresInUnit] at h
    obtain ⟨rfl, rfl, rfl⟩ := h
    rfl
  | cons p rest ih =>
    intro db m db' evs h
    obtain ⟨nm, raw⟩ := p
    simp only [runStoresInUnit] at h
    cases hv : validateAndCanonicalizeOps raw with
    | error er => simp only [hv] at h; cases h
    | ok ops =>
      simp only [hv] at h
      cases hr : runSerial e (schemaGet sch nm) (3 * ops.length + 1)
          (initState ops (dbGet db nm)) with
      | more s2 => simp only [hr] at h; cases h
      | fail er s2 => simp only [hr] at h; cases h
      | done s2 =>
        simp only [hr] at h
        cases hrest : runStoresInUnit e sch i (dbSet db nm s2.contents) rest with
        | error er => simp only [hrest] at h; cases h
        | ok r =>
          obtain ⟨m2, db2, evs2⟩ := r
          simp only [hrest, Except.ok.injEq, Prod.mk.injEq] at h
          obtain ⟨rfl, rfl, rfl⟩ := h
          simp only [List.map_cons, List.cons.injEq]
          exact ⟨trivial, ih (dbSet db nm s2.contents) m2 db2 evs2 hrest⟩

/-- **C4** (amended): for every successful store run, (a) the unit's result
mapping lists each store name of the unit exactly once, in order; (b) in
serial mode, a run that reaches the done state has a result list exactly as
long as the final (expanded) operation array, namely the canonical operation
count plus one injected del per move, and completion is recognized exactly
then; (c) in parallel mode every underlying request still succeeds — the
result list again has length canonical-plus-injected — but the completion
counter recognizes the store as finished already when the CANONICAL number
of requests has succeeded (`successCt === ops.length - moveCt`), not the
canonical count plus injected dels. -/
theorem c4_completion_counting :
    (∀ (e : Bool) (sch : Schema) (i : Nat) (stores : List (String × JVal)) (db : DB)
        (m : List (String × List JVal)) (db' : DB) (evs : List TEvent),
      runStoresInUnit e sch i db stores = .ok (m, db', evs) →
      m.map (fun p => p.1) = stores.map (fun p => p.1))
    ∧ (∀ (e : Bool) (sd : StoreDef) (fuel : Nat) (ops : List JVal) (c : Contents) (s' : SState),
      runSerial e sd fuel (initState ops c) = .done s' →
      s'.results.length = ops.length + movesCount ops ∧
      s'.results.length = s'.ops.length)
    ∧ (∀ (sd : StoreDef) (fuel : Nat) (ops : List JVal) (c : Contents) (stF : PState),
      (∀ op ∈ ops, opCanonical op = true) → ops ≠ [] →
      runParFrom sd fuel ops c = .ok stF →
      stF.results.length = ops.length + movesCount ops ∧
      stF.successCt = ops.length + movesCount ops ∧
      stF.finishedAt = some ops.length) := by
  refine ⟨runStoresInUnit_names, ?_, runParFrom_counts⟩
  intro e sd fuel ops c s' h
  obtain ⟨h1, h2⟩ := runSerial_done_counts e sd fuel (initState ops c) s' h rfl
  refine ⟨?_, h1⟩
  rw [h1, h2]
  rfl

/-- **C4 witness**: the batch [put(key 1, value 10), move(key 2 ← 1)] against
an empty plain store. One store name in the unit mapping; serial run done
with 3 results for 2 canonical + 1 injected operations; parallel run also
yields 3 successes and 3 results, with the finish flag at the canonical
count 2. -/
theorem c4_completion_counting_witness :
    [("s", [JVal.num 1])].map (fun p => p.1) =
      [("s", JVal.arr [c4put])].map (fun p => p.1)
    ∧ (c4serFinal.results.length = c4parOps.length + movesCount c4parOps ∧
       c4serFinal.results.length = c4serFinal.ops.length)
    ∧ (c4parFinal.results.length = c4parOps.length + movesCount c4parOps ∧
       c4parFinal.successCt = c4parOps.length + movesCount c4parOps ∧
       c4parFinal.finishedAt = some c4parOps.length) :=
  ⟨c4_completion_counting.1 false [] 0 [("s", .arr [c4put])] [] [("s", [.num 1])]
      [("s", [(.num 1, .num 10)])] [.storeOpened 0 "s", .storeDone 0 "s"] (by decide),
   c4_completion_counting.2.1 false plainStore 7 c4parOps [] c4serFinal (by decide),
   c4_completion_counting.2.2 plainStore 20 c4parOps [] c4parFinal (by decide)
      (by decide) (by decide)⟩

/-- **C4 counterexample** to the original claim: in parallel mode the
completion check does NOT wait for the injected del. For [put(1), move(2←1)]
three underlying requests are issued and all three succeed, yet the run is
flagged finished after only 2 successes (`finishedAt = some 2`), because the
check compares against `ops.length - moveCt`, which stays at the canonical
count as each move grows both numbers by one. -/
theorem c4_parallel_early_finish_counterexample :
    runParFrom plainStore 20 c4parOps [] = .ok c4parFinal
    ∧ c4parOps.length + movesCount c4parOps = 3
    ∧ c4parFinal.successCt = 3
    ∧ c4parFinal.results.length = 3
    ∧ c4parFinal.finishedAt = some 2
    ∧ (2 : Nat) ≠ 3 :=
  ⟨by decide, by decide, by decide, by decide, by decide, by decide⟩
